import Mathlib

/-!
# Neurocanvas — adaptive generation scheduler: shallow embedding and verification

This file embeds the multi-armed-bandit personalization engine
(`backend/models/UserPreference.js`, `backend/services/mabService.js`),
the model orchestrator (`backend/services/nlpService.js`) and the
generation queue (`modelOrchestrator` collaborator / `GenerationQueue`)
in Lean 4, and proves or refutes the specification claims about them.

Conventions of the embedding:
* JavaScript numbers holding exact values (scores, rewards, priorities,
  rank scores) are embedded as `ℚ`; quantities produced by transcendental
  functions (`Math.exp`, `Math.sqrt`, `Math.log`, `Math.cos`) are embedded
  as `ℝ`; `Infinity` / `-Infinity` sentinels are embedded as `⊤` / `⊥` in
  `EReal` (or `WithBot ℚ` where only `-Infinity` occurs).
* `Math.random()` draws are passed explicitly, either as individual
  arguments or as a stream `ℕ → ℝ` together with a cursor index.
* JavaScript objects used as string-keyed maps are embedded as association
  lists `List (String × _)`; `Object.entries` iteration order is list order.
* Fallible or possibly non-terminating code (the Marsaglia–Tsang
  accept/reject loop) is embedded with explicit fuel, returning `Option`.
-/

/-! ## Data model: `UserPreference` (backend/models/UserPreference.js) -/

/-- `modelPreferenceSchema`: per-arm statistics
(`score`, `pulls`, `wins`, `losses`, all defaulting to 0). -/
structure ArmStats where
  score : ℚ
  pulls : ℕ
  wins : ℕ
  losses : ℕ
  deriving DecidableEq, Repr

/-- Schema default for one arm: `{ score: 0, pulls: 0, wins: 0, losses: 0 }`. -/
def defaultArmStats : ArmStats := ⟨0, 0, 0, 0⟩

/-- `userPreferenceSchema`: the per-user bandit state.  The categorical
preference maps (`stylePreferences` etc.) are association lists whose keys
are the schema-declared category names; `modelPreferences` lists the arms in
`Object.entries` order (`'style-transfer'` first, then `'diffusion'`). -/
structure UserPreferenceState where
  userId : String
  modelPreferences : List (String × ArmStats)
  stylePreferences : List (String × ℚ)
  colorPreferences : List (String × ℚ)
  moodPreferences : List (String × ℚ)
  epsilon : ℝ
  totalGenerations : ℕ
  totalFeedback : ℕ

/-- JavaScript object property access `m[key]` on an association list:
the value at the first matching key, if any. -/
def lookupKey {β : Type} (l : List (String × β)) (k : String) : Option β :=
  (l.find? (fun p => p.1 = k)).map (·.2)

/-- The arm-statistics mutation performed by
`userPreferenceSchema.methods.updatePreferences` on `modelPreferences[model]`:
`pulls += 1`; `wins += 1` if `reward > 0`, `losses += 1` if `reward < 0`;
`score = ((n - 1) * score + reward) / n` with `n` the incremented `pulls`. -/
def updateArmStats (a : ArmStats) (reward : ℚ) : ArmStats :=
  let pulls := a.pulls + 1
  { score := (((pulls : ℚ) - 1) * a.score + reward) / (pulls : ℚ)
    pulls := pulls
    wins := if 0 < reward then a.wins + 1 else a.wins
    losses := if reward < 0 then a.losses + 1 else a.losses }

/-- In-place update of the entry at key `model` (a no-op when the key is
absent, mirroring the `if (this.modelPreferences[model])` guard). -/
def setArm (l : List (String × ArmStats)) (model : String) (reward : ℚ) :
    List (String × ArmStats) :=
  l.map (fun p => if p.1 = model then (p.1, updateArmStats p.2 reward) else p)

/-- JavaScript truthiness of an optional string
(`undefined` and the empty string are falsy). -/
def jsTruthy : Option String → Bool
  | none => false
  | some s => !(s == "")

/-- `if (metadata.tag && prefs.hasOwnProperty(metadata.tag)) prefs[tag] += reward`:
add `reward` to the accumulator at the given (truthy) category key, when that
key is one of the schema-declared categories. -/
def bumpCategory (l : List (String × ℚ)) (tag : Option String) (reward : ℚ) :
    List (String × ℚ) :=
  if jsTruthy tag then
    l.map (fun p => if some p.1 = tag then (p.1, p.2 + reward) else p)
  else l

/-- The epsilon value computed by `userPreferenceSchema.methods.decayEpsilon`:
`max(0.05, 0.2 * Math.exp(-0.02 * totalGenerations))`. -/
noncomputable def decayedEpsilon (totalGenerations : ℕ) : ℝ :=
  max 0.05 (0.2 * Real.exp (-(0.02 : ℝ) * (totalGenerations : ℝ)))

/-- The feedback metadata bag: optional `style` / `color` / `mood` tags. -/
structure FeedbackMetadata where
  style : Option String := none
  color : Option String := none
  mood : Option String := none

/-- `userPreferenceSchema.methods.updatePreferences(model, reward, metadata)`:
update the named arm (when present), bump matching categorical accumulators,
increment `totalFeedback`, and decay epsilon (which reads the *current*
`totalGenerations`; this method does not change `totalGenerations`). -/
noncomputable def UserPreferenceState.updatePreferences
    (st : UserPreferenceState) (model : String) (reward : ℚ)
    (metadata : FeedbackMetadata) : UserPreferenceState :=
  { st with
    modelPreferences := setArm st.modelPreferences model reward
    stylePreferences := bumpCategory st.stylePreferences metadata.style reward
    colorPreferences := bumpCategory st.colorPreferences metadata.color reward
    moodPreferences := bumpCategory st.moodPreferences metadata.mood reward
    totalFeedback := st.totalFeedback + 1
    epsilon := decayedEpsilon st.totalGenerations }

/-! ## `MABService` (backend/services/mabService.js) -/

/-- The state synthesized by `getUserPreferences` on first access: all schema
defaults (`UserPreference.js`), with the arms and categorical accumulators in
schema declaration order. -/
noncomputable def freshPreferences (userId : String) : UserPreferenceState :=
  { userId := userId
    modelPreferences :=
      [("style-transfer", defaultArmStats), ("diffusion", defaultArmStats)]
    stylePreferences :=
      [("abstract", 0), ("realistic", 0), ("surreal", 0), ("impressionist", 0),
       ("expressionist", 0), ("minimalist", 0), ("baroque", 0), ("renaissance", 0)]
    colorPreferences :=
      [("vibrant", 0), ("muted", 0), ("monochrome", 0), ("warm", 0),
       ("cool", 0), ("pastel", 0), ("neon", 0)]
    moodPreferences :=
      [("peaceful", 0), ("dramatic", 0), ("mysterious", 0), ("playful", 0),
       ("ethereal", 0), ("energetic", 0), ("melancholic", 0)]
    epsilon := 0.2
    totalGenerations := 0
    totalFeedback := 0 }

/-- The record returned by `MABService.updatePreferences`. -/
structure MABUpdateResult where
  success : Bool
  epsilon : ℝ
  totalGenerations : ℕ
  modelScore : Option ℚ

/-- `MABService.updatePreferences(userId, model, reward, metadata)`, acting on
the loaded state: apply the schema method `updatePreferences`, then increment
`totalGenerations`, then report `{success, epsilon, totalGenerations,
modelScore: preferences.modelPreferences[model]?.score}`.  Persistence
(`findOne` / `save`) is the external collaborator and is embedded as explicit
state passing. -/
noncomputable def MABService.updatePreferences (st : UserPreferenceState)
    (model : String) (reward : ℚ) (metadata : FeedbackMetadata) :
    MABUpdateResult × UserPreferenceState :=
  let st1 := st.updatePreferences model reward metadata
  let st2 := { st1 with totalGenerations := st1.totalGenerations + 1 }
  ({ success := true
     epsilon := st2.epsilon
     totalGenerations := st2.totalGenerations
     modelScore := (lookupKey st2.modelPreferences model).map (·.score) }, st2)

/-! ## Selection loops

`epsilonGreedy` (via `getBestModel`), `ucb` and `thompsonSampling` all share
the same accumulation pattern: scan candidate/value pairs and replace the
running best exactly when the new value is strictly greater
(`if (value > best)`), so on ties the first-seen candidate wins. -/

/-- The `bestModel` / `bestValue` scan loop, with an explicit initial
accumulator (the `null` / `-Infinity` initialisation of the source). -/
def selectLoop {σ α : Type} [LinearOrder α] :
    (σ × α) → List (σ × α) → σ × α
  | best, [] => best
  | best, x :: xs => selectLoop (if best.2 < x.2 then x else best) xs

/-! ## `getBestModel` (UserPreference.js) -/

/-- `userPreferenceSchema.methods.getBestModel`: scan `modelPreferences`,
keeping the best-scoring arm among arms with `pulls > 0`
(`stats.pulls > 0 && stats.score > bestScore`); the accumulator starts at
`('diffusion', -Infinity)` (embedded as `⊥ : WithBot ℚ`). -/
def UserPreferenceState.getBestModel (st : UserPreferenceState) :
    String × WithBot ℚ :=
  st.modelPreferences.foldl
    (fun best p =>
      if 0 < p.2.pulls ∧ best.2 < (p.2.score : WithBot ℚ) then
        (p.1, (p.2.score : WithBot ℚ))
      else best)
    ("diffusion", ⊥)

/-- The per-arm comparison value used by `getBestModel`: the arm's score when
pulled, and `-Infinity` (never selected) when `pulls = 0`. -/
def pulledScore (a : ArmStats) : WithBot ℚ :=
  if 0 < a.pulls then (a.score : WithBot ℚ) else ⊥

/-! ## `epsilonGreedy` (mabService.js) -/

/-- JavaScript array indexing `arr[i]` with a possibly out-of-range signed
index (`undefined` out of range). -/
def jsIndex (l : List String) (i : ℤ) : Option String :=
  if i < 0 then none else l.get? i.toNat

/-- The record returned by `MABService.epsilonGreedy` (the `score` field is
present only on the exploit branch). -/
structure EpsilonGreedyResult where
  model : Option String
  algorithm : String
  confidence : ℝ
  exploring : Bool
  score : Option (WithBot ℚ)

/-- `MABService.epsilonGreedy(userId, epsilon = null)`, with its two
`Math.random()` draws passed explicitly: `u1` is compared against the
exploration rate, and `u2` picks the random arm index
`Math.floor(u2 * models.length)` on the explore branch.  The exploit branch
delegates to `getBestModel`. -/
noncomputable def MABService.epsilonGreedy (st : UserPreferenceState)
    (epsilon : Option ℝ) (u1 u2 : ℝ) : EpsilonGreedyResult :=
  let eps := epsilon.getD st.epsilon
  if u1 < eps then
    let models := st.modelPreferences.map (·.1)
    { model := jsIndex models ⌊u2 * (models.length : ℝ)⌋
      algorithm := "epsilon-greedy"
      confidence := 1 - eps
      exploring := true
      score := none }
  else
    { model := some st.getBestModel.1
      algorithm := "epsilon-greedy"
      confidence := 1 - eps
      exploring := false
      score := some st.getBestModel.2 }

/-- Modelled from the claim's words, for comparison with the source's
`getBestModel`: "the arm with maximal score **among all arms** (first-seen
wins ties)". -/
def specClaimedBestModel (arms : List (String × ArmStats)) : Option String :=
  (arms.foldl
    (fun (b : Option (String × ℚ)) p =>
      match b with
      | none => some (p.1, p.2.score)
      | some q => if q.2 < p.2.score then some (p.1, p.2.score) else b)
    none).map (·.1)

/-- A state on which the source's exploit branch and the claim's "maximal
score among all arms" rule disagree: `style-transfer` was pulled once with
reward −1, `diffusion` has never been pulled (score 0). -/
noncomputable def exploitProbeState : UserPreferenceState :=
  { userId := "u"
    modelPreferences :=
      [("style-transfer", ⟨-1, 1, 0, 1⟩), ("diffusion", defaultArmStats)]
    stylePreferences := []
    colorPreferences := []
    moodPreferences := []
    epsilon := 1/5
    totalGenerations := 1
    totalFeedback := 1 }

/-! ## `ucb` (mabService.js) -/

/-- `const totalPulls = preferences.totalGenerations || 1` (JavaScript `||`
turns the falsy 0 into 1). -/
def totalPullsOf (st : UserPreferenceState) : ℕ :=
  if st.totalGenerations = 0 then 1 else st.totalGenerations

/-- The per-arm UCB value: `Infinity` for an unplayed arm, otherwise
`score + sqrt(2 * ln(totalPulls) / pulls)`. -/
noncomputable def ucbValue (totalPulls : ℕ) (a : ArmStats) : EReal :=
  if a.pulls = 0 then ⊤
  else (((a.score : ℝ) +
    Real.sqrt ((2 * Real.log (totalPulls : ℝ)) / (a.pulls : ℝ)) : ℝ) : EReal)

/-- The record returned by `MABService.ucb`. -/
structure UCBResult where
  model : Option String
  algorithm : String
  confidence : EReal
  ucbScores : List (String × EReal)

/-- `MABService.ucb(userId)`: compute each arm's UCB value, record the values,
and keep the first arm with a strictly larger value than the running best
(initially `null` / `-Infinity`). -/
noncomputable def MABService.ucb (st : UserPreferenceState) : UCBResult :=
  let totalPulls := totalPullsOf st
  let best := selectLoop ((none : Option String), (⊥ : EReal))
    (st.modelPreferences.map
      (fun p => ((some p.1 : Option String), ucbValue totalPulls p.2)))
  { model := best.1
    algorithm := "ucb"
    confidence := if 0 < best.2 then min best.2 1 else ((0.5 : ℝ) : EReal)
    ucbScores := st.modelPreferences.map
      (fun p => (p.1, ucbValue totalPulls p.2)) }

/-! ## Thompson Sampling (mabService.js)

The sampling helpers draw from an explicit stream `r : ℕ → ℝ` of
`Math.random()` values, threading a cursor index; the unbounded
accept/reject loops carry explicit fuel and return `none` on exhaustion. -/

/-- `MABService.randomNormal` (Box–Muller): consume two uniform draws and
return the normal variate together with the advanced cursor. -/
noncomputable def randomNormal (r : ℕ → ℝ) (i : ℕ) : ℝ × ℕ :=
  (Real.sqrt (-2 * Real.log (r i)) * Real.cos (2 * Real.pi * r (i + 1)), i + 2)

/-- The inner `do { x = randomNormal(); v = 1 + c * x } while (v <= 0)` loop
of `sampleGamma`, fuel-bounded. -/
noncomputable def drawXV (c : ℝ) (r : ℕ → ℝ) : ℕ → ℕ → Option (ℝ × ℝ × ℕ)
  | 0, _ => none
  | fuel + 1, i =>
    let xn := randomNormal r i
    let v := 1 + c * xn.1
    if v ≤ 0 then drawXV c r fuel xn.2 else some (xn.1, v, xn.2)

/-- The outer Marsaglia–Tsang accept/reject loop of `sampleGamma`
(`while (true) { ... }`), fuel-bounded. -/
noncomputable def marsagliaLoop (d c scale : ℝ) (r : ℕ → ℝ) :
    ℕ → ℕ → Option (ℝ × ℕ)
  | 0, _ => none
  | fuel + 1, i =>
    match drawXV c r (fuel + 1) i with
    | none => none
    | some (x, v0, i1) =>
      let v := v0 * v0 * v0
      let u := r i1
      if u < 1 - 0.0331 * (x * x * x * x) then some (d * v * scale, i1 + 1)
      else if Real.log u < 0.5 * x * x + d * (1 - v + Real.log v) then
        some (d * v * scale, i1 + 1)
      else marsagliaLoop d c scale r fuel (i1 + 1)

/-- `MABService.sampleGamma(shape, scale = 1)`: for `shape < 1` use shape
augmentation (`sampleGamma(shape + 1) * Math.pow(Math.random(), 1 / shape)`),
otherwise run the Marsaglia–Tsang loop.  The result additionally reports how
many shape-augmentation recursions were taken (`0` when the `shape < 1`
branch was never entered). -/
noncomputable def sampleGamma (r : ℕ → ℝ) (fuel : ℕ) (shape scale : ℝ)
    (i : ℕ) : Option (ℝ × ℕ × ℕ) :=
  if h : shape < 1 then
    match sampleGamma r fuel (shape + 1) scale i with
    | none => none
    | some (g, i1, dep) =>
      some (g * Real.rpow (r i1) (1 / shape), i1 + 1, dep + 1)
  else
    let d := shape - 1/3
    let c := 1 / Real.sqrt (9 * d)
    (marsagliaLoop d c scale r fuel i).map (fun p => (p.1, p.2, 0))
termination_by (Int.ceil (1 - shape)).toNat
decreasing_by
  have h1 : (0 : ℝ) < 1 - shape := by linarith
  have h2 : 0 < Int.ceil (1 - shape) := Int.ceil_pos.mpr h1
  have h3 : Int.ceil (1 - (shape + 1)) = Int.ceil (1 - shape) - 1 := by
    have heq : 1 - (shape + 1) = (1 - shape) + ((-1 : ℤ) : ℝ) := by
      push_cast; ring
    rw [heq, Int.ceil_add_int]
    omega
  simp only [h3]
  omega

/-- `MABService.sampleBeta(alpha, beta)`:
`Gamma(alpha) / (Gamma(alpha) + Gamma(beta))`, threading the random cursor;
the two augmentation-depth reports of the Gamma calls are passed through. -/
noncomputable def sampleBeta (r : ℕ → ℝ) (fuel : ℕ) (alpha beta : ℝ)
    (i : ℕ) : Option (ℝ × ℕ × ℕ × ℕ) :=
  (sampleGamma r fuel alpha 1 i).bind fun x =>
    (sampleGamma r fuel beta 1 x.2.1).bind fun y =>
      some (x.1 / (x.1 + y.1), y.2.1, x.2.2, y.2.2)

/-- The per-arm sampling pass of `MABService.thompsonSampling`: for each arm
call `sampleBeta(wins + 1, losses + 1)`, collecting
`(model, sample, augmentation depths)`. -/
noncomputable def thompsonSamples (r : ℕ → ℝ) (fuel : ℕ) :
    List (String × ArmStats) → ℕ → Option (List (String × ℝ × ℕ × ℕ) × ℕ)
  | [], i => some ([], i)
  | p :: rest, i =>
    (sampleBeta r fuel ((p.2.wins : ℝ) + 1) ((p.2.losses : ℝ) + 1) i).bind
      fun s => (thompsonSamples r fuel rest s.2.1).bind
        fun out => some ((p.1, s.1, s.2.2.1, s.2.2.2) :: out.1, out.2)

/-- The record returned by `MABService.thompsonSampling`. -/
structure ThompsonResult where
  model : Option String
  algorithm : String
  confidence : EReal
  samples : List (String × ℝ)

/-- `MABService.thompsonSampling(userId)`: sample every arm, then keep the
first arm whose sample strictly exceeds the running best
(initially `null` / `-Infinity`). -/
noncomputable def MABService.thompsonSampling (st : UserPreferenceState)
    (r : ℕ → ℝ) (fuel : ℕ) (i : ℕ) : Option ThompsonResult :=
  (thompsonSamples r fuel st.modelPreferences i).map fun out =>
    let best := selectLoop ((none : Option String), (⊥ : EReal))
      (out.1.map fun e => ((some e.1 : Option String), ((e.2.1 : ℝ) : EReal)))
    { model := best.1
      algorithm := "thompson-sampling"
      confidence := best.2
      samples := out.1.map fun e => (e.1, e.2.1) }

/-! ## `ModelOrchestrator` (backend/services/nlpService.js)

`generateWithModels` / `rankResults`.  The per-backend generation calls
(`_executeStyleTransfer` / `_executeDiffusion`, which spawn external
processes) are the external generation collaborator and are passed as an
oracle `gen : String → Except String (String × ℕ)` returning either an
image URL with the measured generation time (ms) or an error message. -/

/-- One entry of the result array built by `generateWithModels`: a success
entry carries `imageUrl`, `score: 0` and `metadata.generationTime`; a failure
entry carries only `model` and `error`.  Opaque metadata fields other than
`generationTime` (and the `generatedAt` timestamp) are not modelled, as no
modelled code reads them. -/
structure GenEntry where
  model : String
  imageUrl : Option String := none
  score : ℚ := 0
  generationTime : Option ℕ := none
  error : Option String := none
  deriving DecidableEq, Repr

/-- `ModelOrchestrator.generateWithModels(prompt, models, params)`: invoke the
collaborator sequentially for each requested backend; a failure is captured
as a `{model, error}` entry (`try { ... } catch (error) { results.push({model,
error: error.message}) }`) and does not abort the remaining backends. -/
def ModelOrchestrator.generateWithModels
    (gen : String → Except String (String × ℕ)) (models : List String) :
    List GenEntry :=
  models.map fun m =>
    match gen m with
    | .ok (url, t) =>
      { model := m, imageUrl := some url, score := 0, generationTime := some t }
    | .error e => { model := m, error := some e }

/-- One entry of `this.modelStats`: cross-user running averages per backend
(`{totalRuns, avgScore, avgTime}`). -/
structure ModelStat where
  totalRuns : ℕ
  avgScore : ℚ
  avgTime : ℚ
  deriving DecidableEq, Repr

/-- `ModelOrchestrator.updateModelStats(model, performance)`: incremental
update of the running averages (missing entries start at all zeroes). -/
def ModelOrchestrator.updateModelStats (stats : List (String × ModelStat))
    (model : String) (score time : ℚ) : List (String × ModelStat) :=
  let cur := (lookupKey stats model).getD ⟨0, 0, 0⟩
  let n : ℚ := cur.totalRuns
  let upd : ModelStat :=
    { totalRuns := cur.totalRuns + 1
      avgScore := (cur.avgScore * n + score) / (n + 1)
      avgTime := (cur.avgTime * n + time) / (n + 1) }
  if stats.any (fun p => p.1 = model) then
    stats.map (fun p => if p.1 = model then (p.1, upd) else p)
  else stats ++ [(model, upd)]

/-- The filter predicate of `rankResults`:
`results.filter(r => !r.error && r.imageUrl)`. -/
def isValidResult (r : GenEntry) : Bool :=
  r.error == none && jsTruthy r.imageUrl

/-- The speed bonus of `rankResults`: for `time > 0`,
`max(0, (60000 - time) / 60000) * 0.2`, else no bonus
(`time` is `result.metadata?.generationTime || 0`). -/
def speedBonus (e : GenEntry) : ℚ :=
  let time : ℚ := ((e.generationTime.getD 0 : ℕ) : ℚ)
  if 0 < time then max 0 ((60000 - time) / 60000) * 0.2 else 0

/-- The model-stats bonus of `rankResults`: `avgScore * 0.3` when the backend
has stats with `avgScore > 0`, else nothing. -/
def statBonus (stats : List (String × ModelStat)) (e : GenEntry) : ℚ :=
  match lookupKey stats e.model with
  | some s => if 0 < s.avgScore then s.avgScore * 0.3 else 0
  | none => 0

/-- The score assigned to a surviving entry by `rankResults`:
base `0.5`, plus the speed bonus, plus the stats bonus, capped at `1.0`. -/
def rankScore (stats : List (String × ModelStat)) (e : GenEntry) : ℚ :=
  min (0.5 + speedBonus e + statBonus stats e) 1

/-- The backend's global average score with the unset default 0 (used to
state C7's score formula). -/
def avgScoreOf (stats : List (String × ModelStat)) (m : String) : ℚ :=
  ((lookupKey stats m).map (·.avgScore)).getD 0

/-- Stable insertion step for descending sort by `score` (matches the
ES2019+ guarantee that `Array.prototype.sort` with comparator
`(a, b) => b.score - a.score` is a stable descending sort). -/
def insertDescByScore (x : GenEntry) : List GenEntry → List GenEntry
  | [] => [x]
  | y :: ys =>
    if x.score < y.score then y :: insertDescByScore x ys else x :: y :: ys

/-- Stable descending sort by `score`. -/
def sortDescByScore : List GenEntry → List GenEntry
  | [] => []
  | x :: xs => insertDescByScore x (sortDescByScore xs)

/-- `ModelOrchestrator.rankResults(results, prompt)`: drop failed entries,
score the survivors, sort them descending by score; if every entry failed,
return the input unchanged. -/
def ModelOrchestrator.rankResults (stats : List (String × ModelStat))
    (results : List GenEntry) : List GenEntry :=
  let validResults := results.filter isValidResult
  if validResults.isEmpty then results
  else
    sortDescByScore
      (validResults.map (fun r => { r with score := rankScore stats r }))

/-! ## `GenerationQueue` (generationQueue.js)

The queue state mirrors the constructor fields: the pending array, the
`processing` flag, the in-flight job, and the completed-job `Map` (embedded
as an association list in `Map` insertion order) with its capacity.
Timestamps (ated by `new Date()`) are passed in explicitly as naturals; the
opaque `params` bag, which no modelled queue operation reads, is not
modelled.  Event emission and console logging are side channels outside the
state model. -/

/-- A queue job record as built by `addJob`. -/
structure Job where
  id : String
  userId : String
  prompt : String
  models : List String
  priority : Int
  status : String
  progress : ℕ
  createdAt : ℕ
  startedAt : Option ℕ := none
  completedAt : Option ℕ := none
  result : Option (List GenEntry) := none
  error : Option String := none
  deriving DecidableEq, Repr

/-- The `GenerationQueue` instance state. -/
structure QueueState where
  queue : List Job
  processing : Bool
  currentJob : Option Job
  completedJobs : List (String × Job)
  maxCompletedJobs : ℕ
  deriving DecidableEq, Repr

/-- The insertion scan of `addJob`: walk the pending list and splice the new
job in before the first entry whose priority is strictly lower
(`if (this.queue[i].priority < priority)`); push at the end if none is. -/
def insertByPriority (q : List Job) (j : Job) : List Job :=
  match q with
  | [] => [j]
  | x :: xs =>
    if x.priority < j.priority then j :: x :: xs else x :: insertByPriority xs j

/-- `GenerationQueue.addJob`: insert the new job by priority.  Job-id
generation (`uuidv4`), the `added` event and the worker-loop trigger are
outside the queue-order model; the fully built job record is passed in. -/
def GenerationQueue.addJob (st : QueueState) (j : Job) : QueueState :=
  { st with queue := insertByPriority st.queue j }

/-- The order in which the worker loop dispatches the pending jobs:
`processQueue` repeatedly `shift`s the head, so pending jobs run in list
order. -/
def dispatchOrder (st : QueueState) : List String :=
  st.queue.map (·.id)

/-- `Map.prototype.set`: replace in place when the key exists, append
otherwise. -/
def mapSet (m : List (String × Job)) (k : String) (v : Job) :
    List (String × Job) :=
  if m.any (fun p => p.1 = k) then
    m.map (fun p => if p.1 = k then (k, v) else p)
  else m ++ [(k, v)]

/-- The sort key of `_cleanupCompletedJobs`' comparator
`a[1].completedAt - b[1].completedAt` (completed-cache entries always carry
a `completedAt` timestamp). -/
def completedKey (j : Job) : ℕ := j.completedAt.getD 0

/-- Stable ascending insertion by `completedAt` (matches the stable
`Array.prototype.sort`). -/
def insertAscByCompletedAt (x : String × Job) :
    List (String × Job) → List (String × Job)
  | [] => [x]
  | y :: ys =>
    if completedKey x.2 ≤ completedKey y.2 then x :: y :: ys
    else y :: insertAscByCompletedAt x ys

/-- Stable ascending sort by `completedAt`. -/
def sortAscByCompletedAt : List (String × Job) → List (String × Job)
  | [] => []
  | x :: xs => insertAscByCompletedAt x (sortAscByCompletedAt xs)

/-- `GenerationQueue._cleanupCompletedJobs`: when the cache exceeds its
capacity, delete the oldest (by completion time) surplus entries. -/
def GenerationQueue.cleanupCompletedJobs (maxCompleted : ℕ)
    (m : List (String × Job)) : List (String × Job) :=
  if maxCompleted < m.length then
    m.filter (fun p =>
      !((((sortAscByCompletedAt m).take (m.length - maxCompleted)).map
        (·.1)).contains p.1))
  else m

/-- The `findIndex` + `splice(i, 1)` combination of `cancelJob`: remove the
first entry with the given id, returning it and the remaining list. -/
def removeFirstById : List Job → String → Option (Job × List Job)
  | [], _ => none
  | x :: xs, jobId =>
    if x.id = jobId then some (x, xs)
    else (removeFirstById xs jobId).map (fun p => (p.1, x :: p.2))

/-- `GenerationQueue.cancelJob(jobId)`: refuse for the in-flight job;
otherwise remove the job from the pending list, mark it `cancelled` with the
completion timestamp `now`, store it in the completed cache (with cleanup),
and report success.  Unknown ids fail. -/
def GenerationQueue.cancelJob (st : QueueState) (jobId : String) (now : ℕ) :
    Bool × QueueState :=
  if st.currentJob.map (·.id) = some jobId then (false, st)
  else
    match removeFirstById st.queue jobId with
    | none => (false, st)
    | some (job, rest) =>
      let cancelled := { job with status := "cancelled", completedAt := some now }
      (true,
        { st with
          queue := rest
          completedJobs := GenerationQueue.cleanupCompletedJobs
            st.maxCompletedJobs
            (mapSet st.completedJobs cancelled.id cancelled) })

/-- The record returned by `getJobStatus` (fields absent on a given branch of
the source are `none`). -/
structure JobStatusView where
  id : String
  status : String
  progress : ℕ
  queuePosition : Option ℕ := none
  createdAt : ℕ
  startedAt : Option ℕ := none
  completedAt : Option ℕ := none
  error : Option String := none
  deriving DecidableEq, Repr

/-- The `findIndex` scan of `getJobStatus` over the pending list, tracking
the running index. -/
def findWithIndex : List Job → String → ℕ → Option (Job × ℕ)
  | [], _, _ => none
  | x :: xs, jobId, i =>
    if x.id = jobId then some (x, i) else findWithIndex xs jobId (i + 1)

/-- The tail of `getJobStatus` after the in-flight check: the pending-list
scan (1-based queue position), then the completed-cache lookup. -/
def GenerationQueue.statusFromQueue (st : QueueState) (jobId : String) :
    Option JobStatusView :=
  match findWithIndex st.queue jobId 0 with
  | some (job, i) =>
    some { id := job.id, status := job.status, progress := job.progress,
           queuePosition := some (i + 1), createdAt := job.createdAt }
  | none =>
    (lookupKey st.completedJobs jobId).map fun j =>
      { id := j.id, status := j.status, progress := j.progress,
        createdAt := j.createdAt, startedAt := j.startedAt,
        completedAt := j.completedAt, error := j.error }

/-- `GenerationQueue.getJobStatus(jobId)`: check the in-flight job, then the
pending list, then the completed cache; `none` when absent from all three. -/
def GenerationQueue.getJobStatus (st : QueueState) (jobId : String) :
    Option JobStatusView :=
  match st.currentJob with
  | some c =>
    if c.id = jobId then
      some { id := c.id, status := c.status, progress := c.progress,
             queuePosition := some 0, createdAt := c.createdAt,
             startedAt := c.startedAt }
    else GenerationQueue.statusFromQueue st jobId
  | none => GenerationQueue.statusFromQueue st jobId

/-! ## Theorems -/

/-! ## Lemmas for C1: exactness of the incremental mean -/

theorem lookupKey_setArm_self (l : List (String × ArmStats)) (m : String)
    (r : ℚ) : lookupKey (setArm l m r) m =
      (lookupKey l m).map (fun a => updateArmStats a r) := by
  induction l with
  | nil => rfl
  | cons p l ih =>
    by_cases h : p.1 = m
    · simp [lookupKey, setArm, List.find?, h]
    · simpa [lookupKey, setArm, List.find?, h] using ih

theorem lookupKey_updatePreferences (st : UserPreferenceState) (m : String)
    (r : ℚ) (md : FeedbackMetadata) :
    lookupKey (st.updatePreferences m r md).modelPreferences m =
      (lookupKey st.modelPreferences m).map (fun a => updateArmStats a r) := by
  simp [UserPreferenceState.updatePreferences, lookupKey_setArm_self]

/-- Key invariant behind C1, in product form (no division):
after folding a reward sequence `l` into the arm at key `m`, the arm's
`pulls` grows by `l.length` and `score * pulls` grows by `l.sum`. -/
theorem foldl_updatePreferences_arm (m : String) (md : FeedbackMetadata)
    (l : List ℚ) :
    ∀ (st : UserPreferenceState) (a : ArmStats),
      lookupKey st.modelPreferences m = some a →
      ∃ b : ArmStats,
        lookupKey
          (l.foldl (fun s r => s.updatePreferences m r md) st).modelPreferences
            m = some b ∧
        b.pulls = a.pulls + l.length ∧
        b.score * (b.pulls : ℚ) = a.score * (a.pulls : ℚ) + l.sum := by
  induction l with
  | nil =>
    intro st a ha
    exact ⟨a, ha, by simp, by simp⟩
  | cons r l ih =>
    intro st a ha
    have hstep :
        lookupKey
          ((st.updatePreferences m r md)).modelPreferences m =
          some (updateArmStats a r) := by
      rw [lookupKey_updatePreferences, ha]; rfl
    obtain ⟨b, hb, hpulls, hscore⟩ := ih (st.updatePreferences m r md)
      (updateArmStats a r) hstep
    refine ⟨b, by simpa using hb, ?_, ?_⟩
    · simp only [updateArmStats] at hpulls
      simp only [List.length_cons]
      omega
    · have hupd : (updateArmStats a r).score * ((updateArmStats a r).pulls : ℚ)
        = a.score * (a.pulls : ℚ) + r := by
        simp only [updateArmStats]
        push_cast
        field_simp
        ring
      rw [hscore, hupd]
      simp only [List.sum_cons]
      ring

/-- **C1.** Applying `updatePreferences` with a sequence of rewards
`r1..rk` (each in `[-1, 1]`) to a single arm starting from `score = 0` and
`pulls = 0` leaves the arm with `pulls = k` and `score` equal to the exact
arithmetic mean `(r1 + ... + rk) / k`, for every `k ≥ 1`, under exact
rational arithmetic. -/
theorem updatePreferences_score_is_mean (m : String) (md : FeedbackMetadata)
    (l : List ℚ) (st : UserPreferenceState)
    (hne : l ≠ [])
    (ha : lookupKey st.modelPreferences m = some defaultArmStats) :
    ∃ b : ArmStats,
      lookupKey
        (l.foldl (fun s r => s.updatePreferences m r md) st).modelPreferences
          m = some b ∧
      b.pulls = l.length ∧
      b.score = l.sum / (l.length : ℚ) := by
  obtain ⟨b, hb, hpulls, hscore⟩ := foldl_updatePreferences_arm m md l st
    defaultArmStats ha
  have hlen : (l.length : ℚ) ≠ 0 := by
    simpa using (Nat.cast_ne_zero (R := ℚ)).mpr
      (List.length_pos.mpr hne).ne'
  refine ⟨b, hb, by simpa [defaultArmStats] using hpulls, ?_⟩
  have h0 : b.score * (l.length : ℚ) = l.sum := by
    have := hscore
    simp only [defaultArmStats] at this hpulls
    rw [hpulls] at this
    simpa using this
  field_simp
  linarith [h0]

/-- Witness for C1: three rewards `[1, -1/2, 1/4]` on arm `"diffusion"` of a
fresh state; the mean is `1/4`. -/
theorem updatePreferences_score_is_mean_witness :
    ([(1 : ℚ), -1/2, 1/4] ≠ []) ∧
    ∃ b : ArmStats,
      lookupKey
        (([(1 : ℚ), -1/2, 1/4]).foldl
          (fun (s : UserPreferenceState) r => s.updatePreferences "diffusion" r {})
          { userId := "u"
            modelPreferences :=
              [("style-transfer", defaultArmStats), ("diffusion", defaultArmStats)]
            stylePreferences := []
            colorPreferences := []
            moodPreferences := []
            epsilon := 0.2
            totalGenerations := 0
            totalFeedback := 0 }).modelPreferences "diffusion" = some b ∧
      b.pulls = ([(1 : ℚ), -1/2, 1/4]).length ∧
      b.score = ([(1 : ℚ), -1/2, 1/4]).sum / (([(1 : ℚ), -1/2, 1/4]).length : ℚ) :=
  ⟨by simp,
    updatePreferences_score_is_mean "diffusion" {} [(1 : ℚ), -1/2, 1/4] _
      (by simp) (by simp [lookupKey, List.find?])⟩

/-- **C4 (counterexample).** The claim says `totalGenerations` is
"incremented once per completed job, not once per feedback event."  In the
code the increment sits inside `MABService.updatePreferences` — the
per-feedback path — and no job-completion path touches it: a single feedback
event on a fresh state takes `totalGenerations` from 0 to 1. -/
theorem totalGenerations_incremented_by_feedback_event :
    (freshPreferences "u").totalGenerations = 0 ∧
    (MABService.updatePreferences (freshPreferences "u") "diffusion" (1/2)
        {}).2.totalGenerations = 1 ∧
    (MABService.updatePreferences (freshPreferences "u") "diffusion" (1/2)
        {}).2.totalGenerations ≠ (freshPreferences "u").totalGenerations := by
  refine ⟨rfl, rfl, by simp [MABService.updatePreferences, freshPreferences,
    UserPreferenceState.updatePreferences]⟩

/-- **C4 (amended).** `updatePreferences` recomputes
`epsilon = max(0.05, 0.2 * exp(-0.02 * totalGenerations))` using the
`totalGenerations` value current when the update begins (i.e. *before* the
service's own increment), and the service then increments `totalGenerations`
once per feedback event (each `updatePreferences` call), not once per
completed job. -/
theorem MABService_updatePreferences_epsilon_decay (st : UserPreferenceState)
    (model : String) (reward : ℚ) (md : FeedbackMetadata) :
    (MABService.updatePreferences st model reward md).2.epsilon =
      max 0.05 (0.2 * Real.exp (-(0.02 : ℝ) * (st.totalGenerations : ℝ))) ∧
    (MABService.updatePreferences st model reward md).2.totalGenerations =
      st.totalGenerations + 1 ∧
    (MABService.updatePreferences st model reward md).1.epsilon =
      (MABService.updatePreferences st model reward md).2.epsilon ∧
    (MABService.updatePreferences st model reward md).1.totalGenerations =
      (MABService.updatePreferences st model reward md).2.totalGenerations := by
  refine ⟨rfl, rfl, rfl, rfl⟩

theorem lookupKey_eq_none {β : Type} (l : List (String × β)) (k : String) :
    lookupKey l k = none ↔ ∀ p ∈ l, p.1 ≠ k := by
  induction l with
  | nil => simp [lookupKey]
  | cons p l ih =>
    by_cases h : p.1 = k
    · simp [lookupKey, List.find?, h]
    · simpa [lookupKey, List.find?, h] using ih

theorem setArm_of_absent (l : List (String × ArmStats)) (m : String) (r : ℚ)
    (h : ∀ p ∈ l, p.1 ≠ m) : setArm l m r = l := by
  induction l with
  | nil => rfl
  | cons p l ih =>
    have hp : ¬ p.1 = m := h p (by simp)
    simp only [setArm, List.map_cons, if_neg hp]
    have := ih (fun q hq => h q (by simp [hq]))
    simpa [setArm] using this

/-- **C9.** Calling `updatePreferences` with an arm name that is not a key of
`modelPreferences` changes no arm's statistics and raises no error, yet
`totalFeedback` is still incremented, epsilon is still decayed,
`totalGenerations` is still incremented at the service level, and the service
reports `success` with an undefined (`none`) `modelScore`.  (Absence of an
error is modelled by totality of the embedded function.) -/
theorem MABService_updatePreferences_unknown_arm (st : UserPreferenceState)
    (model : String) (reward : ℚ) (md : FeedbackMetadata)
    (h : lookupKey st.modelPreferences model = none) :
    (MABService.updatePreferences st model reward md).2.modelPreferences =
      st.modelPreferences ∧
    (MABService.updatePreferences st model reward md).2.totalFeedback =
      st.totalFeedback + 1 ∧
    (MABService.updatePreferences st model reward md).2.epsilon =
      decayedEpsilon st.totalGenerations ∧
    (MABService.updatePreferences st model reward md).2.totalGenerations =
      st.totalGenerations + 1 ∧
    (MABService.updatePreferences st model reward md).1.success = true ∧
    (MABService.updatePreferences st model reward md).1.modelScore = none := by
  have habs : ∀ p ∈ st.modelPreferences, p.1 ≠ model :=
    (lookupKey_eq_none _ _).mp h
  have hset : setArm st.modelPreferences model reward = st.modelPreferences :=
    setArm_of_absent _ _ _ habs
  refine ⟨?_, rfl, rfl, rfl, rfl, ?_⟩
  · simp [MABService.updatePreferences, UserPreferenceState.updatePreferences,
      hset]
  · simp [MABService.updatePreferences, UserPreferenceState.updatePreferences,
      hset, h]

/-- Characterization of `selectLoop`: the result value dominates every
scanned value, and either the accumulator survives (nothing beat it) or the
result is the first list entry attaining the maximum (every earlier entry is
strictly smaller). -/
theorem selectLoop_spec {σ α : Type} [LinearOrder α] (l : List (σ × α)) :
    ∀ b : σ × α,
      (∀ x ∈ l, x.2 ≤ (selectLoop b l).2) ∧
      ((selectLoop b l = b ∧ ∀ x ∈ l, x.2 ≤ b.2) ∨
        ∃ l1 l2, l = l1 ++ (selectLoop b l) :: l2 ∧
          b.2 < (selectLoop b l).2 ∧
          ∀ y ∈ l1, y.2 < (selectLoop b l).2) := by
  induction l with
  | nil => intro b; exact ⟨by simp, Or.inl ⟨rfl, by simp⟩⟩
  | cons x xs ih =>
    intro b
    by_cases h : b.2 < x.2
    · have hrun : selectLoop b (x :: xs) = selectLoop x xs := by
        simp [selectLoop, h]
      obtain ⟨hmax, hcases⟩ := ih x
      have hxr : x.2 ≤ (selectLoop x xs).2 := by
        rcases hcases with ⟨heq, _⟩ | ⟨l1, l2, _, hlt, _⟩
        · rw [heq]
        · exact le_of_lt hlt
      refine ⟨?_, ?_⟩
      · intro y hy
        rw [hrun]
        rcases List.mem_cons.mp hy with rfl | hy'
        · exact hxr
        · exact hmax y hy'
      · rcases hcases with ⟨heq, hall⟩ | ⟨l1, l2, hdecomp, hlt, hpre⟩
        · refine Or.inr ⟨[], xs, ?_, ?_, by simp⟩
          · rw [hrun, heq]; simp
          · rw [hrun, heq]; exact h
        · refine Or.inr ⟨x :: l1, l2, ?_, ?_, ?_⟩
          · rw [hrun]; simpa using hdecomp
          · rw [hrun]; exact lt_trans h hlt
          · intro y hy
            rw [hrun]
            rcases List.mem_cons.mp hy with rfl | hy'
            · exact hlt
            · exact hpre y hy'
    · have hrun : selectLoop b (x :: xs) = selectLoop b xs := by
        simp [selectLoop, h]
      obtain ⟨hmax, hcases⟩ := ih b
      have hbr : b.2 ≤ (selectLoop b xs).2 := by
        rcases hcases with ⟨heq, _⟩ | ⟨l1, l2, _, hlt, _⟩
        · rw [heq]
        · exact le_of_lt hlt
      refine ⟨?_, ?_⟩
      · intro y hy
        rw [hrun]
        rcases List.mem_cons.mp hy with rfl | hy'
        · exact le_trans (le_of_not_lt h) hbr
        · exact hmax y hy'
      · rcases hcases with ⟨heq, hall⟩ | ⟨l1, l2, hdecomp, hlt, hpre⟩
        · refine Or.inl ⟨by rw [hrun]; exact heq, ?_⟩
          intro y hy
          rcases List.mem_cons.mp hy with rfl | hy'
          · exact le_of_not_lt h
          · exact hall y hy'
        · refine Or.inr ⟨x :: l1, l2, ?_, ?_, ?_⟩
          · rw [hrun]; simpa using hdecomp
          · rw [hrun]; exact hlt
          · intro y hy
            rw [hrun]
            rcases List.mem_cons.mp hy with rfl | hy'
            · exact lt_of_le_of_lt (le_of_not_lt h) hlt
            · exact hpre y hy'

/-- Split a list along a decomposition of its image under `map`. -/
theorem map_decomp {α β : Type} (f : α → β) (l : List α) :
    ∀ (l1' : List β) (r : β) (l2' : List β), l.map f = l1' ++ r :: l2' →
      ∃ l1 x l2, l = l1 ++ x :: l2 ∧ f x = r ∧ l1.map f = l1' ∧
        l2.map f = l2' := by
  induction l with
  | nil => intro l1' r l2' h; cases l1' <;> simp at h
  | cons a l ih =>
    intro l1' r l2' h
    cases l1' with
    | nil =>
      simp only [List.map_cons, List.nil_append, List.cons.injEq] at h
      exact ⟨[], a, l, by simp, h.1, by simp, h.2⟩
    | cons c l1' =>
      simp only [List.map_cons, List.cons_append, List.cons.injEq] at h
      obtain ⟨l1, x, l2, hdec, hfx, hm1, hm2⟩ := ih l1' r l2' h.2
      exact ⟨a :: l1, x, l2, by simp [hdec], hfx, by simp [hm1, h.1], hm2⟩

theorem selectLoop_eq_foldl {σ α : Type} [LinearOrder α] (l : List (σ × α))
    (b : σ × α) :
    selectLoop b l = l.foldl (fun best x => if best.2 < x.2 then x else best) b := by
  induction l generalizing b with
  | nil => rfl
  | cons x xs ih => simpa [selectLoop] using ih _

theorem getBestModel_eq_selectLoop (st : UserPreferenceState) :
    st.getBestModel =
      selectLoop ("diffusion", (⊥ : WithBot ℚ))
        (st.modelPreferences.map (fun p => (p.1, pulledScore p.2))) := by
  rw [UserPreferenceState.getBestModel, selectLoop_eq_foldl,
    List.foldl_map]
  congr 1
  funext best p
  by_cases hp : 0 < p.2.pulls
  · simp [pulledScore, hp]
  · simp [pulledScore, hp]

/-- What `getBestModel` actually returns: either no arm has been pulled and the
default `('diffusion', -Infinity)` survives, or the result is the first arm
(in iteration order) attaining the maximal score among arms with
`pulls > 0`. -/
theorem getBestModel_spec (st : UserPreferenceState) :
    (st.getBestModel = ("diffusion", ⊥) ∧
      ∀ p ∈ st.modelPreferences, p.2.pulls = 0) ∨
    ∃ l1 p l2, st.modelPreferences = l1 ++ p :: l2 ∧
      st.getBestModel = (p.1, (p.2.score : WithBot ℚ)) ∧
      0 < p.2.pulls ∧
      (∀ q ∈ l1, 0 < q.2.pulls → (q.2.score : WithBot ℚ) < (p.2.score : WithBot ℚ)) ∧
      (∀ q ∈ st.modelPreferences, 0 < q.2.pulls →
        (q.2.score : WithBot ℚ) ≤ (p.2.score : WithBot ℚ)) := by
  obtain ⟨hmax, hcases⟩ := selectLoop_spec
    (st.modelPreferences.map (fun p => (p.1, pulledScore p.2)))
    ("diffusion", (⊥ : WithBot ℚ))
  rw [← getBestModel_eq_selectLoop] at hmax hcases
  rcases hcases with ⟨heq, hall⟩ | ⟨l1', l2', hdecomp, hlt, hpre⟩
  · refine Or.inl ⟨heq, ?_⟩
    intro p hp
    have := hall (p.1, pulledScore p.2) (List.mem_map_of_mem _ hp)
    by_contra hne
    have hpos : 0 < p.2.pulls := Nat.pos_of_ne_zero hne
    simp only [pulledScore, if_pos hpos] at this
    exact absurd this (by simp)
  · obtain ⟨l1, p, l2, hdec, hfp, hm1, _⟩ := map_decomp _ _ _ _ _ hdecomp
    have hppos : 0 < p.2.pulls := by
      by_contra hne
      have hbot : pulledScore p.2 = ⊥ := by
        simp [pulledScore, hne]
      rw [← hfp] at hlt
      simp only [hbot] at hlt
      exact absurd hlt (by simp)
    have hval : st.getBestModel.2 = (p.2.score : WithBot ℚ) := by
      have := congrArg Prod.snd hfp
      simpa [pulledScore, hppos] using this.symm
    refine Or.inr ⟨l1, p, l2, hdec, ?_, hppos, ?_, ?_⟩
    · have h1 : st.getBestModel.1 = p.1 := by
        have := congrArg Prod.fst hfp
        simpa using this.symm
      have : st.getBestModel = (st.getBestModel.1, st.getBestModel.2) := rfl
      rw [this, h1, hval]
    · intro q hq hqpos
      have hmem : (q.1, pulledScore q.2) ∈ l1' := by
        rw [← hm1]; exact List.mem_map_of_mem _ hq
      have := hpre _ hmem
      rw [hval] at this
      simpa [pulledScore, hqpos] using this
    · intro q hq hqpos
      have := hmax (q.1, pulledScore q.2) (List.mem_map_of_mem _ hq)
      rw [hval] at this
      simpa [pulledScore, hqpos] using this

/-- **C5 (counterexample).** On the exploit branch the code does *not* pick
the arm with maximal score among all arms: with `style-transfer` at score −1
(pulled once) and `diffusion` at score 0 (never pulled), `getBestModel`
restricts to arms with `pulls > 0` and returns `style-transfer`, while the
claimed rule ("maximal score among all arms") would return `diffusion`. -/
theorem epsilonGreedy_not_max_over_all_arms :
    (MABService.epsilonGreedy exploitProbeState none (9/10) 0).exploring
        = false ∧
    (MABService.epsilonGreedy exploitProbeState none (9/10) 0).model
        = some "style-transfer" ∧
    specClaimedBestModel exploitProbeState.modelPreferences
        = some "diffusion" ∧
    (MABService.epsilonGreedy exploitProbeState none (9/10) 0).model ≠
      specClaimedBestModel exploitProbeState.modelPreferences := by
  have hbest : exploitProbeState.getBestModel = ("style-transfer", ((-1 : ℚ) : WithBot ℚ)) := by
    have h1 : (0 : ℕ) < 1 := Nat.one_pos
    have h2 : (⊥ : WithBot ℚ) < ((-1 : ℚ) : WithBot ℚ) := WithBot.bot_lt_coe _
    simp [UserPreferenceState.getBestModel, exploitProbeState, defaultArmStats,
      List.foldl, h1, h2]
  have hspec : specClaimedBestModel exploitProbeState.modelPreferences
      = some "diffusion" := by
    have hlt : (-1 : ℚ) < 0 := by norm_num
    simp [specClaimedBestModel, exploitProbeState, defaultArmStats,
      List.foldl, hlt]
  have hcond : ¬ ((9/10 : ℝ) < Option.getD (none : Option ℝ) exploitProbeState.epsilon) := by
    have heps : exploitProbeState.epsilon = (1/5 : ℝ) := rfl
    rw [Option.getD_none, heps]
    norm_num
  have hrun : MABService.epsilonGreedy exploitProbeState none (9/10) 0 =
      { model := some exploitProbeState.getBestModel.1
        algorithm := "epsilon-greedy"
        confidence := 1 - Option.getD (none : Option ℝ) exploitProbeState.epsilon
        exploring := false
        score := some exploitProbeState.getBestModel.2 } := by
    simp only [MABService.epsilonGreedy]
    rw [if_neg hcond]
  refine ⟨?_, ?_, hspec, ?_⟩
  · rw [hrun]
  · rw [hrun, hbest]
  · rw [hrun, hbest, hspec]
    simp

/-- **C5 (amended).** For every preference state and draws: when the draw
falls below epsilon (the state's epsilon unless overridden) `epsilonGreedy`
returns the arm at the uniformly drawn index with `exploring = true`;
otherwise it returns, with `exploring = false`, the arm with maximal score
among arms with `pulls > 0` (first-seen wins ties), defaulting to
`'diffusion'` (score `-Infinity`) when no arm has been pulled; in both cases
the reported confidence equals `1 - epsilon`. -/
theorem MABService_epsilonGreedy_spec (st : UserPreferenceState)
    (epsOverride : Option ℝ) (u1 u2 : ℝ) :
    (MABService.epsilonGreedy st epsOverride u1 u2).confidence
        = 1 - epsOverride.getD st.epsilon ∧
    (u1 < epsOverride.getD st.epsilon →
      (MABService.epsilonGreedy st epsOverride u1 u2).exploring = true ∧
      (MABService.epsilonGreedy st epsOverride u1 u2).model =
        jsIndex (st.modelPreferences.map (·.1))
          ⌊u2 * ((st.modelPreferences.length : ℕ) : ℝ)⌋ ∧
      (0 ≤ u2 → u2 < 1 → st.modelPreferences ≠ [] →
        ∃ i : ℕ, i < st.modelPreferences.length ∧
          (i : ℤ) = ⌊u2 * ((st.modelPreferences.length : ℕ) : ℝ)⌋ ∧
          (MABService.epsilonGreedy st epsOverride u1 u2).model =
            (st.modelPreferences.map (·.1)).get? i)) ∧
    (¬ u1 < epsOverride.getD st.epsilon →
      (MABService.epsilonGreedy st epsOverride u1 u2).exploring = false ∧
      (MABService.epsilonGreedy st epsOverride u1 u2).model =
        some st.getBestModel.1 ∧
      ((st.getBestModel = ("diffusion", ⊥) ∧
          ∀ p ∈ st.modelPreferences, p.2.pulls = 0) ∨
        ∃ l1 p l2, st.modelPreferences = l1 ++ p :: l2 ∧
          st.getBestModel = (p.1, (p.2.score : WithBot ℚ)) ∧
          0 < p.2.pulls ∧
          (∀ q ∈ l1, 0 < q.2.pulls →
            (q.2.score : WithBot ℚ) < (p.2.score : WithBot ℚ)) ∧
          (∀ q ∈ st.modelPreferences, 0 < q.2.pulls →
            (q.2.score : WithBot ℚ) ≤ (p.2.score : WithBot ℚ)))) := by
  refine ⟨?_, ?_, ?_⟩
  · by_cases h : u1 < epsOverride.getD st.epsilon
    · simp [MABService.epsilonGreedy, h]
    · simp [MABService.epsilonGreedy, h]
  · intro h
    refine ⟨by simp [MABService.epsilonGreedy, h],
      by simp [MABService.epsilonGreedy, h], ?_⟩
    intro h0 h1 hne
    have hlen : 0 < st.modelPreferences.length := List.length_pos.mpr hne
    have hfl0 : (0 : ℤ) ≤ ⌊u2 * ((st.modelPreferences.length : ℕ) : ℝ)⌋ :=
      Int.floor_nonneg.mpr (by positivity)
    have hflub : ⌊u2 * ((st.modelPreferences.length : ℕ) : ℝ)⌋ <
        (st.modelPreferences.length : ℤ) := by
      have : u2 * ((st.modelPreferences.length : ℕ) : ℝ) <
          ((st.modelPreferences.length : ℕ) : ℝ) := by
        have hl : (0 : ℝ) < ((st.modelPreferences.length : ℕ) : ℝ) := by
          exact_mod_cast hlen
        nlinarith
      exact_mod_cast Int.floor_lt.mpr (by exact_mod_cast this)
    refine ⟨(⌊u2 * ((st.modelPreferences.length : ℕ) : ℝ)⌋).toNat, ?_, ?_, ?_⟩
    · omega
    · omega
    · simp [MABService.epsilonGreedy, h, jsIndex, not_lt.mpr hfl0]
  · intro h
    exact ⟨by simp [MABService.epsilonGreedy, h],
      by simp [MABService.epsilonGreedy, h], getBestModel_spec st⟩

/-- Witness for C5's amended theorem: both branches at a fresh state
(override ε = 1/2; explore draw 1/4 < 1/2 on one side, 3/4 on the other). -/
theorem MABService_epsilonGreedy_spec_witness :
    ((1/4 : ℝ) < (Option.getD (some (1/2 : ℝ)) (freshPreferences "u").epsilon) ∧
      (MABService.epsilonGreedy (freshPreferences "u") (some (1/2)) (1/4)
          0).confidence = 1 - Option.getD (some (1/2 : ℝ)) (freshPreferences "u").epsilon) ∧
    (MABService.epsilonGreedy (freshPreferences "u") (some (1/2)) (3/4)
        0).confidence = 1 - Option.getD (some (1/2 : ℝ)) (freshPreferences "u").epsilon := by
  constructor
  · constructor
    · simp; norm_num
    · exact (MABService_epsilonGreedy_spec (freshPreferences "u") (some (1/2))
        (1/4) 0).1
  · exact (MABService_epsilonGreedy_spec (freshPreferences "u") (some (1/2))
      (3/4) 0).1

theorem ucbValue_bot_lt (totalPulls : ℕ) (a : ArmStats) :
    (⊥ : EReal) < ucbValue totalPulls a := by
  unfold ucbValue
  split
  · exact bot_lt_top
  · exact EReal.bot_lt_coe _

/-- **C2.** `ucb` computes `T = max(totalGenerations, 1)`, assigns each arm
with `pulls = 0` the value `+∞` and each arm with `pulls > 0` the value
`score + sqrt(2 * ln(T) / pulls)`, and returns an arm with the maximal value,
ties resolved by iteration order (first seen wins); consequently, whenever at
least one arm has `pulls = 0`, the selected arm has `pulls = 0`, regardless
of the other arms' scores. -/
theorem MABService_ucb_correct (st : UserPreferenceState)
    (hne : st.modelPreferences ≠ []) :
    totalPullsOf st = max st.totalGenerations 1 ∧
    (∀ p ∈ st.modelPreferences,
      (p.2.pulls = 0 → ucbValue (totalPullsOf st) p.2 = ⊤) ∧
      (0 < p.2.pulls → ucbValue (totalPullsOf st) p.2 =
        (((p.2.score : ℝ) +
          Real.sqrt ((2 * Real.log ((totalPullsOf st : ℕ) : ℝ)) /
            (p.2.pulls : ℝ)) : ℝ) : EReal))) ∧
    (∃ l1 p l2, st.modelPreferences = l1 ++ p :: l2 ∧
      (MABService.ucb st).model = some p.1 ∧
      (∀ q ∈ l1, ucbValue (totalPullsOf st) q.2 <
        ucbValue (totalPullsOf st) p.2) ∧
      (∀ q ∈ st.modelPreferences, ucbValue (totalPullsOf st) q.2 ≤
        ucbValue (totalPullsOf st) p.2) ∧
      ((∃ q ∈ st.modelPreferences, q.2.pulls = 0) → p.2.pulls = 0)) := by
  refine ⟨?_, ?_, ?_⟩
  · unfold totalPullsOf
    split <;> omega
  · intro p _
    constructor
    · intro h0
      simp [ucbValue, h0]
    · intro hpos
      simp [ucbValue, Nat.pos_iff_ne_zero.mp hpos]
  · obtain ⟨hmax, hcases⟩ := selectLoop_spec
      (st.modelPreferences.map
        (fun p => ((some p.1 : Option String), ucbValue (totalPullsOf st) p.2)))
      ((none : Option String), (⊥ : EReal))
    rcases hcases with ⟨heq, hall⟩ | ⟨l1', l2', hdecomp, _, hpre⟩
    · obtain ⟨x, xs, hx⟩ := List.exists_cons_of_ne_nil hne
      have hmem : ((some x.1 : Option String),
          ucbValue (totalPullsOf st) x.2) ∈
          st.modelPreferences.map
            (fun p => ((some p.1 : Option String), ucbValue (totalPullsOf st) p.2)) := by
        rw [hx]; simp
      have := hall _ hmem
      exact absurd (lt_of_lt_of_le (ucbValue_bot_lt _ _) this) (by simp)
    · obtain ⟨l1, p, l2, hdec, hfp, hm1, _⟩ := map_decomp _ _ _ _ _ hdecomp
      have hmodel : (MABService.ucb st).model = some p.1 := by
        show (selectLoop ((none : Option String), (⊥ : EReal))
          (st.modelPreferences.map
            (fun p => ((some p.1 : Option String),
              ucbValue (totalPullsOf st) p.2)))).1 = some p.1
        have := congrArg Prod.fst hfp
        simpa using this.symm
      have hval : (selectLoop ((none : Option String), (⊥ : EReal))
          (st.modelPreferences.map
            (fun p => ((some p.1 : Option String),
              ucbValue (totalPullsOf st) p.2)))).2 =
          ucbValue (totalPullsOf st) p.2 := by
        have := congrArg Prod.snd hfp
        simpa using this.symm
      refine ⟨l1, p, l2, hdec, hmodel, ?_, ?_, ?_⟩
      · intro q hq
        have hmem : ((some q.1 : Option String),
            ucbValue (totalPullsOf st) q.2) ∈ l1' := by
          rw [← hm1]; exact List.mem_map_of_mem _ hq
        have := hpre _ hmem
        rwa [hval] at this
      · intro q hq
        have := hmax ((some q.1 : Option String),
          ucbValue (totalPullsOf st) q.2) (List.mem_map_of_mem _ hq)
        rwa [hval] at this
      · rintro ⟨q, hq, hq0⟩
        by_contra hp0
        have htop : ucbValue (totalPullsOf st) q.2 = ⊤ := by
          simp [ucbValue, hq0]
        have hle := hmax ((some q.1 : Option String),
          ucbValue (totalPullsOf st) q.2) (List.mem_map_of_mem _ hq)
        rw [hval] at hle
        rw [htop] at hle
        have hptop : ucbValue (totalPullsOf st) p.2 = ⊤ := top_le_iff.mp hle
        have hnetop : ucbValue (totalPullsOf st) p.2 ≠ ⊤ := by
          unfold ucbValue
          rw [if_neg hp0]
          exact EReal.coe_ne_top _
        exact hnetop hptop

/-- Witness for C2: a fresh state has a non-empty arm list. -/
theorem MABService_ucb_correct_witness :
    (freshPreferences "u").modelPreferences ≠ [] ∧
    totalPullsOf (freshPreferences "u") =
      max (freshPreferences "u").totalGenerations 1 :=
  ⟨by simp [freshPreferences],
    (MABService_ucb_correct (freshPreferences "u")
      (by simp [freshPreferences])).1⟩

/-- For a shape `≥ 1` the `shape < 1` branch is not taken: `sampleGamma` goes
straight to the Marsaglia–Tsang loop and reports augmentation depth 0. -/
theorem sampleGamma_no_augmentation (r : ℕ → ℝ) (fuel : ℕ) (shape scale : ℝ)
    (i : ℕ) (h : 1 ≤ shape) :
    sampleGamma r fuel shape scale i =
      (marsagliaLoop (shape - 1/3) (1 / Real.sqrt (9 * (shape - 1/3))) scale r
        fuel i).map (fun p => (p.1, p.2, 0)) := by
  rw [sampleGamma, dif_neg (not_lt.mpr h)]

theorem sampleGamma_no_augmentation_witness :
    (1 : ℝ) ≤ 2 ∧
    sampleGamma (fun _ => 1/2) 0 2 1 0 =
      (marsagliaLoop ((2 : ℝ) - 1/3) (1 / Real.sqrt (9 * ((2 : ℝ) - 1/3))) 1
        (fun _ => 1/2) 0 0).map (fun p => (p.1, p.2, 0)) :=
  ⟨by norm_num,
    sampleGamma_no_augmentation (fun _ => 1/2) 0 2 1 0 (by norm_num)⟩

theorem sampleBeta_depths_zero (r : ℕ → ℝ) (fuel : ℕ) (alpha beta : ℝ)
    (i : ℕ) (ha : 1 ≤ alpha) (hb : 1 ≤ beta) (o : ℝ × ℕ × ℕ × ℕ)
    (h : sampleBeta r fuel alpha beta i = some o) :
    o.2.2.1 = 0 ∧ o.2.2.2 = 0 := by
  rw [sampleBeta, sampleGamma_no_augmentation r fuel alpha 1 i ha] at h
  rcases hx : marsagliaLoop (alpha - 1/3) (1 / Real.sqrt (9 * (alpha - 1/3)))
      1 r fuel i with _ | x
  · rw [hx] at h; simp at h
  · rw [hx] at h
    simp only [Option.map_some', Option.some_bind] at h
    rw [sampleGamma_no_augmentation r fuel beta 1 _ hb] at h
    rcases hy : marsagliaLoop (beta - 1/3) (1 / Real.sqrt (9 * (beta - 1/3)))
        1 r fuel x.2 with _ | y
    · rw [hy] at h; simp at h
    · rw [hy] at h
      simp only [Option.map_some', Option.some_bind, Option.some_inj] at h
      rw [← h]
      exact ⟨rfl, rfl⟩

theorem sampleBeta_depths_zero_witness :
    (1 : ℝ) ≤ 1 ∧ (1 : ℝ) ≤ 2 ∧
    (∀ o : ℝ × ℕ × ℕ × ℕ,
      sampleBeta (fun _ => 1/2) 0 1 2 0 = some o → o.2.2.1 = 0 ∧ o.2.2.2 = 0) :=
  ⟨le_refl 1, by norm_num,
    fun o h => sampleBeta_depths_zero (fun _ => 1/2) 0 1 2 0
      (le_refl 1) (by norm_num) o h⟩

/-- **C10.** On the Thompson Sampling path, `sampleBeta` is always invoked
with `alpha = wins + 1` and `beta = losses + 1` (both `≥ 1` since
`wins, losses : ℕ`), so every `sampleGamma` call has shape `≥ 1` and the
`shape < 1` shape-augmentation branch is unreachable from
`thompsonSampling`: every recorded augmentation depth is 0, and
`sampleGamma` at any such shape reduces to the Marsaglia–Tsang loop. -/
theorem thompsonSampling_gamma_shape_ge_one (st : UserPreferenceState)
    (r : ℕ → ℝ) (fuel i : ℕ) :
    (∀ w : ℕ, (1 : ℝ) ≤ (w : ℝ) + 1) ∧
    (∀ (w : ℕ) (scale : ℝ) (j : ℕ),
      sampleGamma r fuel ((w : ℝ) + 1) scale j =
        (marsagliaLoop (((w : ℝ) + 1) - 1/3)
          (1 / Real.sqrt (9 * (((w : ℝ) + 1) - 1/3))) scale r fuel j).map
          (fun p => (p.1, p.2, 0))) ∧
    ((thompsonSamples r fuel st.modelPreferences i).all fun out =>
      out.1.all fun e => e.2.2.1 == 0 && e.2.2.2 == 0) = true := by
  have hshape : ∀ w : ℕ, (1 : ℝ) ≤ (w : ℝ) + 1 := by
    intro w
    have : (0 : ℝ) ≤ (w : ℝ) := Nat.cast_nonneg w
    linarith
  refine ⟨hshape, fun w scale j =>
    sampleGamma_no_augmentation r fuel _ scale j (hshape w), ?_⟩
  induction st.modelPreferences generalizing i with
  | nil => simp [thompsonSamples]
  | cons p rest ih =>
    rw [thompsonSamples]
    rcases hs : sampleBeta r fuel ((p.2.wins : ℝ) + 1) ((p.2.losses : ℝ) + 1) i
        with _ | s
    · simp
    · obtain ⟨hd1, hd2⟩ := sampleBeta_depths_zero r fuel _ _ i
        (hshape p.2.wins) (hshape p.2.losses) s hs
      rcases ht : thompsonSamples r fuel rest s.2.1 with _ | out
      · simp [ht]
      · have := ih s.2.1
        rw [ht] at this
        simp only [Option.all_some] at this
        simp [ht, hd1, hd2, this]

theorem insertDescByScore_perm (x : GenEntry) (l : List GenEntry) :
    (insertDescByScore x l).Perm (x :: l) := by
  induction l with
  | nil => simp [insertDescByScore]
  | cons y ys ih =>
    by_cases h : x.score < y.score
    · simp only [insertDescByScore, if_pos h]
      exact (ih.cons y).trans (List.Perm.swap x y ys)
    · simp [insertDescByScore, if_neg h]

theorem sortDescByScore_perm (l : List GenEntry) :
    (sortDescByScore l).Perm l := by
  induction l with
  | nil => simp [sortDescByScore]
  | cons x xs ih =>
    exact (insertDescByScore_perm x (sortDescByScore xs)).trans (ih.cons x)

theorem insertDescByScore_sorted (x : GenEntry) (l : List GenEntry)
    (h : l.Pairwise (fun a b => b.score ≤ a.score)) :
    (insertDescByScore x l).Pairwise (fun a b => b.score ≤ a.score) := by
  induction l with
  | nil => simp [insertDescByScore]
  | cons y ys ih =>
    rcases List.pairwise_cons.mp h with ⟨hy, hys⟩
    by_cases hxy : x.score < y.score
    · simp only [insertDescByScore, if_pos hxy]
      refine List.pairwise_cons.mpr ⟨?_, ih hys⟩
      intro z hz
      have := (insertDescByScore_perm x ys).mem_iff.mp hz
      rcases List.mem_cons.mp this with rfl | hz'
      · exact le_of_lt hxy
      · exact hy z hz'
    · simp only [insertDescByScore, if_neg hxy]
      refine List.pairwise_cons.mpr ⟨?_, h⟩
      intro z hz
      rcases List.mem_cons.mp hz with rfl | hz'
      · exact le_of_not_lt hxy
      · exact le_trans (hy z hz') (le_of_not_lt hxy)

theorem sortDescByScore_sorted (l : List GenEntry) :
    (sortDescByScore l).Pairwise (fun a b => b.score ≤ a.score) := by
  induction l with
  | nil => simp [sortDescByScore]
  | cons x xs ih => exact insertDescByScore_sorted x _ ih

/-- **C6.** `generateWithModels` returns exactly one result entry per
requested backend, in request order; a backend whose generation call raises
yields an entry carrying that backend's name and the error message, and the
failure does not prevent the remaining backends from being invoked; and with
one of two backends always raising, the result has two entries — one with a
populated output, one with an error field — and `rankResults` then returns
only the successful one. -/
theorem ModelOrchestrator_generateWithModels_partial_failure
    (gen : String → Except String (String × ℕ)) (models : List String) :
    (ModelOrchestrator.generateWithModels gen models).length = models.length ∧
    (∀ i m, models.get? i = some m →
      ((ModelOrchestrator.generateWithModels gen models).get? i).map (·.model)
          = some m ∧
      (∀ e, gen m = .error e →
        (ModelOrchestrator.generateWithModels gen models).get? i =
          some { model := m, error := some e }) ∧
      (∀ url t, gen m = .ok (url, t) →
        (ModelOrchestrator.generateWithModels gen models).get? i =
          some { model := m, imageUrl := some url, score := 0,
                 generationTime := some t })) ∧
    (∀ b1 b2 e url t stats, gen b1 = .error e → gen b2 = .ok (url, t) →
      url ≠ "" →
      ModelOrchestrator.generateWithModels gen [b1, b2] =
        [{ model := b1, error := some e },
         { model := b2, imageUrl := some url, score := 0,
           generationTime := some t }] ∧
      ModelOrchestrator.rankResults stats
          (ModelOrchestrator.generateWithModels gen [b1, b2]) =
        [{ model := b2, imageUrl := some url,
           score := rankScore stats
             { model := b2, imageUrl := some url, score := 0,
               generationTime := some t },
           generationTime := some t }]) := by
  refine ⟨by simp [ModelOrchestrator.generateWithModels], ?_, ?_⟩
  · intro i m hm
    have hmap : (ModelOrchestrator.generateWithModels gen models).get? i =
        (models.get? i).map (fun m =>
          match gen m with
          | .ok (url, t) =>
            { model := m, imageUrl := some url, score := 0,
              generationTime := some t }
          | .error e => ({ model := m, error := some e } : GenEntry)) := by
      rw [ModelOrchestrator.generateWithModels, List.get?_map]
    refine ⟨?_, ?_, ?_⟩
    · rw [hmap, hm]
      cases hg : gen m with
      | error e => simp [hg]
      | ok p => simp [hg]
    · intro e he
      rw [hmap, hm]
      simp [he]
    · intro url t hok
      rw [hmap, hm]
      simp [hok]
  · intro b1 b2 e url t stats herr hok hurl
    have hgen : ModelOrchestrator.generateWithModels gen [b1, b2] =
        [{ model := b1, error := some e },
         { model := b2, imageUrl := some url, score := 0,
           generationTime := some t }] := by
      simp [ModelOrchestrator.generateWithModels, herr, hok]
    refine ⟨hgen, ?_⟩
    rw [hgen]
    have hv1 : isValidResult { model := b1, error := some e } = false := by
      simp [isValidResult]
    have hv2 : isValidResult
        { model := b2, imageUrl := some url, score := 0,
          generationTime := some t } = true := by
      simp [isValidResult, jsTruthy]
      exact hurl
    simp [ModelOrchestrator.rankResults, hv1, hv2, sortDescByScore,
      insertDescByScore]

/-- Witness for C6: a collaborator that always fails on `style-transfer` and
succeeds on `diffusion`; the two-entry scenario plays out as claimed. -/
theorem ModelOrchestrator_generateWithModels_partial_failure_witness :
    ((fun m => if m = "style-transfer" then
        Except.error "Style transfer requires a base image"
      else Except.ok ("out.png", 1000)) "style-transfer"
        = Except.error (ε := String) "Style transfer requires a base image") ∧
    ((fun m => if m = "style-transfer" then
        Except.error "Style transfer requires a base image"
      else Except.ok ("out.png", 1000)) "diffusion"
        = Except.ok (ε := String) (("out.png" : String), (1000 : ℕ))) ∧
    ("out.png" : String) ≠ "" ∧
    ModelOrchestrator.generateWithModels
      (fun m => if m = "style-transfer" then
          Except.error "Style transfer requires a base image"
        else Except.ok ("out.png", 1000)) ["style-transfer", "diffusion"] =
      [{ model := "style-transfer",
         error := some "Style transfer requires a base image" },
       { model := "diffusion", imageUrl := some "out.png", score := 0,
         generationTime := some 1000 }] ∧
    ModelOrchestrator.rankResults []
        (ModelOrchestrator.generateWithModels
          (fun m => if m = "style-transfer" then
              Except.error "Style transfer requires a base image"
            else Except.ok ("out.png", 1000)) ["style-transfer", "diffusion"]) =
      [{ model := "diffusion", imageUrl := some "out.png",
         score := rankScore []
           { model := "diffusion", imageUrl := some "out.png", score := 0,
             generationTime := some 1000 },
         generationTime := some 1000 }] := by
  have h := (ModelOrchestrator_generateWithModels_partial_failure
    (fun m => if m = "style-transfer" then
        Except.error "Style transfer requires a base image"
      else Except.ok ("out.png", 1000)) ["style-transfer", "diffusion"]).2.2
    "style-transfer" "diffusion" "Style transfer requires a base image"
    "out.png" 1000 [] (by simp) (by simp) (by simp)
  exact ⟨by simp, by simp, by simp, h.1, h.2⟩

/-- **C7.** `rankResults` removes every entry that has an error or lacks a
(truthy) output reference, assigns each surviving entry
`min(0.5 + speedBonus + 0.3 * avgScore, 1.0)` (speed bonus between 0 and
0.2), and returns the survivors sorted in descending score order; if no entry
survives the filter, the original input list is returned unchanged.  The
hypothesis (every recorded backend average is nonnegative — true of averages
of scores in `[0, 1]`) makes the conditional `avgScore > 0` bonus of the
source coincide with the claim's unconditional `0.3 * avgScore` term. -/
theorem ModelOrchestrator_rankResults_spec (stats : List (String × ModelStat))
    (results : List GenEntry)
    (hAvg : (stats.all fun p => decide (0 ≤ p.2.avgScore)) = true) :
    (∀ r : GenEntry, isValidResult r = true ↔
      (r.error = none ∧ r.imageUrl ≠ none ∧ r.imageUrl ≠ some "")) ∧
    (results.filter isValidResult = [] →
      ModelOrchestrator.rankResults stats results = results) ∧
    (results.filter isValidResult ≠ [] →
      ModelOrchestrator.rankResults stats results =
        sortDescByScore ((results.filter isValidResult).map
          (fun r => { r with score := rankScore stats r })) ∧
      (ModelOrchestrator.rankResults stats results).Pairwise
        (fun a b => b.score ≤ a.score) ∧
      (ModelOrchestrator.rankResults stats results).Perm
        ((results.filter isValidResult).map
          (fun r => { r with score := rankScore stats r }))) ∧
    (∀ r : GenEntry,
      rankScore stats r =
        min (0.5 + speedBonus r + 0.3 * avgScoreOf stats r.model) 1 ∧
      0 ≤ speedBonus r ∧ speedBonus r ≤ 0.2) := by
  refine ⟨?_, ?_, ?_, ?_⟩
  · intro r
    cases he : r.error with
    | some e => simp [isValidResult, he]
    | none =>
      cases hu : r.imageUrl with
      | none => simp [isValidResult, jsTruthy, he, hu]
      | some s =>
        by_cases hs : s = ""
        · simp [isValidResult, jsTruthy, he, hu, hs]
        · simp [isValidResult, jsTruthy, he, hu, hs]
  · intro h
    simp [ModelOrchestrator.rankResults, h]
  · intro h
    have hne : (results.filter isValidResult).isEmpty = false := by
      simpa [List.isEmpty_iff] using h
    have hres : ModelOrchestrator.rankResults stats results =
        sortDescByScore ((results.filter isValidResult).map
          (fun r => { r with score := rankScore stats r })) := by
      simp [ModelOrchestrator.rankResults, hne]
    exact ⟨hres, hres ▸ sortDescByScore_sorted _, hres ▸ sortDescByScore_perm _⟩
  · intro r
    have hstat : statBonus stats r = 0.3 * avgScoreOf stats r.model := by
      rw [statBonus, avgScoreOf]
      cases hl : lookupKey stats r.model with
      | none => simp
      | some s =>
        have hmem : 0 ≤ s.avgScore := by
          have hfind := hl
          rw [lookupKey] at hfind
          cases hf : stats.find? (fun p => p.1 = r.model) with
          | none => rw [hf] at hfind; simp at hfind
          | some p =>
            rw [hf] at hfind
            simp only [Option.map_some', Option.some_inj] at hfind
            have hp := List.mem_of_find?_eq_some hf
            have := List.all_eq_true.mp hAvg p hp
            rw [hfind] at this
            exact of_decide_eq_true this
        by_cases hpos : 0 < s.avgScore
        · simp [hpos, mul_comm]
        · have : s.avgScore = 0 := le_antisymm (not_lt.mp hpos) hmem
          simp [hpos, this]
    refine ⟨by rw [rankScore, hstat], ?_, ?_⟩
    · rw [speedBonus]
      split
      · positivity
      · exact le_refl 0
    · rw [speedBonus]
      split
      · rename_i htime
        have h1 : max 0 ((60000 - ((r.generationTime.getD 0 : ℕ) : ℚ)) / 60000) ≤ 1 := by
          refine max_le (by norm_num) ?_
          rw [div_le_one (by norm_num)]
          have : (0 : ℚ) ≤ ((r.generationTime.getD 0 : ℕ) : ℚ) :=
            Nat.cast_nonneg _
          linarith
        calc max 0 ((60000 - ((r.generationTime.getD 0 : ℕ) : ℚ)) / 60000) * 0.2
            ≤ 1 * 0.2 := by
              exact mul_le_mul_of_nonneg_right h1 (by norm_num)
          _ = 0.2 := by norm_num
      · norm_num

/-- Witness for C7: empty stats (trivially nonnegative averages) and a
two-entry result list with one failure. -/
theorem ModelOrchestrator_rankResults_spec_witness :
    ((([] : List (String × ModelStat)).all fun p =>
        decide (0 ≤ p.2.avgScore)) = true) ∧
    (rankScore []
        { model := "diffusion", imageUrl := some "a.png",
          generationTime := some 1000 } =
      min (0.5 + speedBonus
            { model := "diffusion", imageUrl := some "a.png",
              generationTime := some 1000 } +
          0.3 * avgScoreOf []
            (GenEntry.model
              { model := "diffusion", imageUrl := some "a.png",
                generationTime := some 1000 })) 1 ∧
      0 ≤ speedBonus
        { model := "diffusion", imageUrl := some "a.png",
          generationTime := some 1000 } ∧
      speedBonus
        { model := "diffusion", imageUrl := some "a.png",
          generationTime := some 1000 } ≤ 0.2) :=
  ⟨by decide,
    (ModelOrchestrator_rankResults_spec []
      [{ model := "diffusion", imageUrl := some "a.png",
         generationTime := some 1000 },
       { model := "style-transfer", error := some "boom" }]
      (by decide)).2.2.2
      { model := "diffusion", imageUrl := some "a.png",
        generationTime := some 1000 }⟩

/-! ### C3: priority ordering of `addJob` -/

theorem insertByPriority_eq_takeWhile_dropWhile (q : List Job) (j : Job) :
    insertByPriority q j =
      q.takeWhile (fun x => !(decide (x.priority < j.priority))) ++
        j :: q.dropWhile (fun x => !(decide (x.priority < j.priority))) := by
  induction q with
  | nil => rfl
  | cons x xs ih =>
    by_cases h : x.priority < j.priority
    · simp [insertByPriority, List.takeWhile_cons, List.dropWhile_cons, h]
    · simp [insertByPriority, List.takeWhile_cons, List.dropWhile_cons, h, ih]

theorem mem_insertByPriority (q : List Job) (j y : Job)
    (h : y ∈ insertByPriority q j) : y = j ∨ y ∈ q := by
  induction q with
  | nil => simpa [insertByPriority] using h
  | cons x xs ih =>
    by_cases hx : x.priority < j.priority
    · simp only [insertByPriority, if_pos hx] at h
      rcases List.mem_cons.mp h with rfl | h'
      · exact Or.inl rfl
      · exact Or.inr h'
    · simp only [insertByPriority, if_neg hx] at h
      rcases List.mem_cons.mp h with rfl | h'
      · exact Or.inr (by simp)
      · rcases ih h' with rfl | hy
        · exact Or.inl rfl
        · exact Or.inr (by simp [hy])

theorem insertByPriority_sorted (q : List Job) (j : Job)
    (h : q.Pairwise (fun a b => b.priority ≤ a.priority)) :
    (insertByPriority q j).Pairwise (fun a b => b.priority ≤ a.priority) := by
  induction q with
  | nil => simp [insertByPriority]
  | cons x xs ih =>
    rcases List.pairwise_cons.mp h with ⟨hx, hxs⟩
    by_cases hcmp : x.priority < j.priority
    · simp only [insertByPriority, if_pos hcmp]
      refine List.pairwise_cons.mpr ⟨?_, h⟩
      intro y hy
      rcases List.mem_cons.mp hy with rfl | hy'
      · exact le_of_lt hcmp
      · exact le_trans (hx y hy') (le_of_lt hcmp)
    · simp only [insertByPriority, if_neg hcmp]
      refine List.pairwise_cons.mpr ⟨?_, ih hxs⟩
      intro y hy
      rcases mem_insertByPriority xs j y hy with rfl | hy'
      · exact le_of_not_lt hcmp
      · exact hx y hy'

theorem mem_takeWhile_of_sorted (q : List Job) (j : Job)
    (h : q.Pairwise (fun a b => b.priority ≤ a.priority)) :
    ∀ x ∈ q, ¬ x.priority < j.priority →
      x ∈ q.takeWhile (fun x => !(decide (x.priority < j.priority))) := by
  induction q with
  | nil => simp
  | cons y ys ih =>
    rcases List.pairwise_cons.mp h with ⟨hy, hys⟩
    intro x hx hxp
    rcases List.mem_cons.mp hx with rfl | hx'
    · rw [List.takeWhile_cons, if_pos (by simpa using hxp)]
      simp
    · have hyp : ¬ y.priority < j.priority := by
        have hxy : x.priority ≤ y.priority := hy x hx'
        intro hcon
        exact hxp (lt_of_le_of_lt hxy hcon)
      rw [List.takeWhile_cons, if_pos (by simpa using hyp)]
      exact List.mem_cons_of_mem y (ih hys x hx' hxp)

/-- **C3.** `addJob` inserts the new job immediately before the first pending
entry whose priority is strictly lower (appending at the end if none exists),
so the pending list stays ordered by priority descending with equal-priority
jobs in insertion order; hence (the worker dispatching pending jobs in list
order) a job with higher priority added after a lower-priority pending job is
dispatched before it, and jobs whose priority is not lower than any existing
one (in particular equal-priority jobs) are dispatched after the existing
ones. -/
theorem GenerationQueue_addJob_priority_order (st : QueueState) (j : Job) :
    ((GenerationQueue.addJob st j).queue =
      st.queue.takeWhile (fun x => !(decide (x.priority < j.priority))) ++
        j :: st.queue.dropWhile (fun x => !(decide (x.priority < j.priority)))) ∧
    (st.queue.Pairwise (fun a b => b.priority ≤ a.priority) →
      (GenerationQueue.addJob st j).queue.Pairwise
        (fun a b => b.priority ≤ a.priority)) ∧
    (st.queue.Pairwise (fun a b => b.priority ≤ a.priority) →
      ∃ pre suf, (GenerationQueue.addJob st j).queue = pre ++ j :: suf ∧
        dispatchOrder (GenerationQueue.addJob st j) =
          pre.map (·.id) ++ j.id :: suf.map (·.id) ∧
        (∀ x ∈ st.queue, x.priority < j.priority → x ∈ suf) ∧
        (∀ x ∈ st.queue, ¬ x.priority < j.priority → x ∈ pre)) := by
  have hins : (GenerationQueue.addJob st j).queue = insertByPriority st.queue j :=
    rfl
  refine ⟨by rw [hins]; exact insertByPriority_eq_takeWhile_dropWhile _ _,
    ?_, ?_⟩
  · intro h
    rw [hins]
    exact insertByPriority_sorted _ _ h
  · intro h
    refine ⟨st.queue.takeWhile (fun x => !(decide (x.priority < j.priority))),
      st.queue.dropWhile (fun x => !(decide (x.priority < j.priority))),
      by rw [hins]; exact insertByPriority_eq_takeWhile_dropWhile _ _,
      ?_, ?_, ?_⟩
    · rw [dispatchOrder, hins, insertByPriority_eq_takeWhile_dropWhile]
      simp
    · intro x hx hxp
      have hsplit := List.takeWhile_append_dropWhile
        (p := fun x => !(decide (x.priority < j.priority))) (l := st.queue)
      rw [← hsplit] at hx
      rcases List.mem_append.mp hx with htk | hdr
      · have := List.mem_takeWhile_imp htk
        simp only [Bool.not_eq_true', decide_eq_false_iff_not] at this
        exact absurd hxp this
      · exact hdr
    · exact mem_takeWhile_of_sorted st.queue j h

/-- Witness for C3: a priority-10 job added to a sorted queue holding a
priority-5 job lands in front of it, all equal-priority entries staying in
submission order. -/
theorem GenerationQueue_addJob_priority_order_witness :
    ({ queue := [{ id := "low", userId := "u", prompt := "p", models := [],
                   priority := 5, status := "pending", progress := 0,
                   createdAt := 0 }],
       processing := false, currentJob := none, completedJobs := [],
       maxCompletedJobs := 100 } : QueueState).queue.Pairwise
        (fun a b => b.priority ≤ a.priority) ∧
    (GenerationQueue.addJob
      { queue := [{ id := "low", userId := "u", prompt := "p", models := [],
                    priority := 5, status := "pending", progress := 0,
                    createdAt := 0 }],
        processing := false, currentJob := none, completedJobs := [],
        maxCompletedJobs := 100 }
      { id := "high", userId := "u", prompt := "p", models := [],
        priority := 10, status := "pending", progress := 0,
        createdAt := 1 }).queue.Pairwise
        (fun a b => b.priority ≤ a.priority) :=
  ⟨by decide,
    (GenerationQueue_addJob_priority_order
      { queue := [{ id := "low", userId := "u", prompt := "p", models := [],
                    priority := 5, status := "pending", progress := 0,
                    createdAt := 0 }],
        processing := false, currentJob := none, completedJobs := [],
        maxCompletedJobs := 100 }
      { id := "high", userId := "u", prompt := "p", models := [],
        priority := 10, status := "pending", progress := 0,
        createdAt := 1 }).2.1 (by decide)⟩

/-! ### C8: `cancelJob` and `getJobStatus` -/

theorem removeFirstById_spec (l : List Job) (k : String) :
    ∀ (x : Job) (rest : List Job), removeFirstById l k = some (x, rest) →
      x.id = k ∧ ∃ pre suf, l = pre ++ x :: suf ∧ rest = pre ++ suf ∧
        ∀ y ∈ pre, y.id ≠ k := by
  induction l with
  | nil => intro x rest h; simp [removeFirstById] at h
  | cons a l ih =>
    intro x rest h
    by_cases ha : a.id = k
    · rw [removeFirstById, if_pos ha, Option.some_inj] at h
      obtain ⟨rfl, rfl⟩ := Prod.mk.injEq a l x rest ▸ h
      exact ⟨ha, [], l, by simp, by simp, by simp⟩
    · rw [removeFirstById, if_neg ha] at h
      rcases hr : removeFirstById l k with _ | q
      · rw [hr] at h; simp at h
      · rw [hr] at h
        simp only [Option.map_some', Option.some_inj] at h
        obtain ⟨hx, hrest⟩ := Prod.mk.injEq q.1 (a :: q.2) x rest ▸ h
        obtain ⟨hid, pre, suf, hl, hr2, hpre⟩ := ih q.1 q.2 (by simpa using hr)
        refine ⟨hx ▸ hid, a :: pre, suf, ?_, ?_, ?_⟩
        · rw [hl]; simp [hx]
        · rw [← hrest, hr2]; simp
        · intro y hy
          rcases List.mem_cons.mp hy with rfl | hy'
          · exact ha
          · exact hpre y hy'

theorem removeFirstById_eq_none (l : List Job) (k : String)
    (h : ∀ y ∈ l, y.id ≠ k) : removeFirstById l k = none := by
  induction l with
  | nil => rfl
  | cons a l ih =>
    rw [removeFirstById, if_neg (h a (by simp)),
      ih (fun y hy => h y (by simp [hy]))]
    rfl

theorem findWithIndex_eq_none (l : List Job) (k : String)
    (h : ∀ y ∈ l, y.id ≠ k) : ∀ i, findWithIndex l k i = none := by
  induction l with
  | nil => intro i; rfl
  | cons a l ih =>
    intro i
    rw [findWithIndex, if_neg (h a (by simp))]
    exact ih (fun y hy => h y (by simp [hy])) (i + 1)

theorem lookupKey_of_mem_nodup {β : Type} (l : List (String × β)) (k : String)
    (v : β) (hmem : (k, v) ∈ l) (hnd : (l.map (·.1)).Nodup) :
    lookupKey l k = some v := by
  induction l with
  | nil => simp at hmem
  | cons p l ih =>
    have hnd' : (∀ b, (p.1, b) ∉ l) ∧ (l.map (·.1)).Nodup := by
      simpa using hnd
    rcases List.mem_cons.mp hmem with hp | hmem'
    · rw [← hp]
      simp [lookupKey, List.find?]
    · have hp : ¬ p.1 = k := by
        intro hcon
        exact hnd'.1 v (hcon ▸ hmem')
      have hstep : lookupKey (p :: l) k = lookupKey l k := by
        simp [lookupKey, List.find?, hp]
      rw [hstep]
      exact ih hmem' hnd'.2

theorem insertAscByCompletedAt_perm (x : String × Job)
    (l : List (String × Job)) :
    (insertAscByCompletedAt x l).Perm (x :: l) := by
  induction l with
  | nil => simp [insertAscByCompletedAt]
  | cons y ys ih =>
    by_cases h : completedKey x.2 ≤ completedKey y.2
    · simp [insertAscByCompletedAt, if_pos h]
    · simp only [insertAscByCompletedAt, if_neg h]
      exact (ih.cons y).trans (List.Perm.swap x y ys)

theorem sortAscByCompletedAt_perm (l : List (String × Job)) :
    (sortAscByCompletedAt l).Perm l := by
  induction l with
  | nil => simp [sortAscByCompletedAt]
  | cons x xs ih =>
    exact (insertAscByCompletedAt_perm x (sortAscByCompletedAt xs)).trans
      (ih.cons x)

theorem insertAsc_before_last (x t : String × Job)
    (zs : List (String × Job)) (h : completedKey x.2 ≤ completedKey t.2) :
    ∃ zs', insertAscByCompletedAt x (zs ++ [t]) = zs' ++ [t] ∧
      zs'.length = zs.length + 1 := by
  induction zs with
  | nil => exact ⟨[x], by simp [insertAscByCompletedAt, h], rfl⟩
  | cons z zs ih =>
    by_cases hz : completedKey x.2 ≤ completedKey z.2
    · exact ⟨x :: z :: zs, by simp [insertAscByCompletedAt, hz], by simp⟩
    · obtain ⟨zs', hzs', hlen⟩ := ih
      exact ⟨z :: zs', by simp [insertAscByCompletedAt, hz, hzs'],
        by simp [hlen]⟩

/-- Inserting an entry whose completion time dominates the rest last (as the
freshly completed entry is) leaves it last after the stable ascending sort. -/
theorem sortAsc_last_max (m' : List (String × Job)) (x : String × Job)
    (hle : ∀ y ∈ m', completedKey y.2 ≤ completedKey x.2) :
    ∃ zs, sortAscByCompletedAt (m' ++ [x]) = zs ++ [x] ∧
      zs.length = m'.length := by
  induction m' with
  | nil => exact ⟨[], by simp [sortAscByCompletedAt, insertAscByCompletedAt], rfl⟩
  | cons a m' ih =>
    obtain ⟨zs, hzs, hlen⟩ := ih (fun y hy => hle y (by simp [hy]))
    obtain ⟨zs', hzs', hlen'⟩ := insertAsc_before_last a x zs (hle a (by simp))
    refine ⟨zs', ?_, by simp only [List.length_cons]; omega⟩
    have : (a :: m') ++ [x] = a :: (m' ++ [x]) := by simp
    rw [this, sortAscByCompletedAt, hzs, hzs']

/-- The freshly appended maximal-timestamp cache entry survives
`_cleanupCompletedJobs` (it sorts last, and eviction takes from the front),
and is found by key lookup afterwards. -/
theorem cleanup_keeps_last (maxC : ℕ) (m' : List (String × Job))
    (x : String × Job)
    (hnd : ((m' ++ [x]).map (·.1)).Nodup)
    (hle : ∀ y ∈ m', completedKey y.2 ≤ completedKey x.2)
    (hmaxpos : 1 ≤ maxC) :
    lookupKey (GenerationQueue.cleanupCompletedJobs maxC (m' ++ [x])) x.1 =
      some x.2 := by
  have hxmem : (x.1, x.2) ∈ m' ++ [x] := by
    rw [show (x.1, x.2) = x from rfl]
    exact List.mem_append_right _ (by simp)
  by_cases hlen : maxC < (m' ++ [x]).length
  · obtain ⟨zs, hzs, hzslen⟩ := sortAsc_last_max m' x hle
    have hk : (m' ++ [x]).length - maxC ≤ zs.length := by
      rw [hzslen]
      simp only [List.length_append, List.length_cons, List.length_nil]
      omega
    have htake : (sortAscByCompletedAt (m' ++ [x])).take
        ((m' ++ [x]).length - maxC) = zs.take ((m' ++ [x]).length - maxC) := by
      rw [hzs]
      exact List.take_append_of_le_length hk
    have hxnotm : x.1 ∉ m'.map (·.1) := by
      have hsplit : ((m' ++ [x]).map (·.1)) = m'.map (·.1) ++ [x.1] := by simp
      rw [hsplit] at hnd
      have := List.disjoint_of_nodup_append hnd
      intro hcon
      exact this hcon (by simp)
    have hxnot : x.1 ∉ ((sortAscByCompletedAt (m' ++ [x])).take
        ((m' ++ [x]).length - maxC)).map (·.1) := by
      rw [htake]
      intro hcon
      obtain ⟨y, hy, hyk⟩ := List.mem_map.mp hcon
      have hyzs : y ∈ zs := List.mem_of_mem_take hy
      have hperm : (sortAscByCompletedAt (m' ++ [x])).Perm (m' ++ [x]) :=
        sortAscByCompletedAt_perm _
      have hymem : y ∈ m' ++ [x] := hperm.mem_iff.mp
        (by rw [hzs]; exact List.mem_append_left _ hyzs)
      rcases List.mem_append.mp hymem with hym | hyx
      · exact hxnotm (hyk ▸ List.mem_map_of_mem (·.1) hym)
      · have hyx' : y = x := by simpa using hyx
        subst hyx'
        have hzsperm : zs.Perm m' := by
          have := hperm
          rw [hzs] at this
          exact (List.perm_append_right_iff [y]).mp this
        exact hxnotm (List.mem_map_of_mem (·.1) (hzsperm.mem_iff.mp hyzs))
    have hcontains : ((((sortAscByCompletedAt (m' ++ [x])).take
        ((m' ++ [x]).length - maxC)).map (·.1)).contains x.1) = false := by
      rw [List.contains_eq_any_beq, List.any_eq_false]
      intro a ha
      simp only [beq_iff_eq]
      intro hcon
      exact hxnot (by rw [hcon]; exact ha)
    rw [GenerationQueue.cleanupCompletedJobs, if_pos hlen]
    apply lookupKey_of_mem_nodup
    · refine List.mem_filter.mpr ⟨hxmem, ?_⟩
      rw [show (x.1, x.2) = x from rfl, hcontains]
      rfl
    · exact hnd.sublist ((List.filter_sublist _).map _)
  · rw [GenerationQueue.cleanupCompletedJobs, if_neg hlen]
    exact lookupKey_of_mem_nodup _ _ _ hxmem hnd

theorem ne_of_contains_eq_false {l : List String} {a : String}
    (h : l.contains a = false) : ∀ b ∈ l, b ≠ a := by
  intro b hb hcon
  rw [List.contains_eq_any_beq, List.any_eq_false] at h
  exact h b hb (by simp [hcon])

/-- When a job id is neither in flight nor pending but is cached,
`getJobStatus` reports the cached record. -/
theorem getJobStatus_completed_branch (st' : QueueState) (jobId : String)
    (j : Job)
    (hcur : ∀ c, st'.currentJob = some c → c.id ≠ jobId)
    (hq : ∀ y ∈ st'.queue, y.id ≠ jobId)
    (hl : lookupKey st'.completedJobs jobId = some j) :
    GenerationQueue.getJobStatus st' jobId =
      some { id := j.id, status := j.status, progress := j.progress,
             queuePosition := none, createdAt := j.createdAt,
             startedAt := j.startedAt, completedAt := j.completedAt,
             error := j.error } := by
  have hnone := findWithIndex_eq_none st'.queue jobId hq 0
  have hsfq : GenerationQueue.statusFromQueue st' jobId =
      some { id := j.id, status := j.status, progress := j.progress,
             queuePosition := none, createdAt := j.createdAt,
             startedAt := j.startedAt, completedAt := j.completedAt,
             error := j.error } := by
    unfold GenerationQueue.statusFromQueue
    rw [hnone, hl]
    rfl
  cases hc : st'.currentJob with
  | none =>
    have hred : GenerationQueue.getJobStatus st' jobId =
        GenerationQueue.statusFromQueue st' jobId := by
      rw [GenerationQueue.getJobStatus, hc]
    rw [hred]
    exact hsfq
  | some c =>
    have hred : GenerationQueue.getJobStatus st' jobId =
        if c.id = jobId then
          some { id := c.id, status := c.status, progress := c.progress,
                 queuePosition := some 0, createdAt := c.createdAt,
                 startedAt := c.startedAt }
        else GenerationQueue.statusFromQueue st' jobId := by
      rw [GenerationQueue.getJobStatus, hc]
    rw [hred, if_neg (hcur c hc)]
    exact hsfq

/-- **C8.** `cancelJob(jobId)` returns `false` (leaving the state unchanged)
when `jobId` is the currently-processing job or is not present in the pending
list; when `jobId` is a pending job it removes the job from the pending list,
sets its status to `cancelled`, moves it to the completed cache, and returns
`true`, after which `getJobStatus(jobId)` reports status `cancelled`.  The
success case assumes the reachable-state invariants: distinct ids, `jobId`
not already cached, cache timestamps not in the future, and a positive cache
capacity. -/
theorem GenerationQueue_cancelJob_spec (st : QueueState) (jobId : String)
    (now : ℕ) :
    (st.currentJob.map (·.id) = some jobId →
      GenerationQueue.cancelJob st jobId now = (false, st)) ∧
    ((st.queue.map (·.id)).contains jobId = false →
      GenerationQueue.cancelJob st jobId now = (false, st)) ∧
    (∀ job rest,
      st.currentJob.map (·.id) ≠ some jobId →
      removeFirstById st.queue jobId = some (job, rest) →
      (st.queue.map (·.id)).Nodup →
      (st.completedJobs.map (·.1)).Nodup →
      ((st.completedJobs.map (·.1)).contains jobId) = false →
      (st.completedJobs.all fun p => decide (completedKey p.2 ≤ now)) = true →
      1 ≤ st.maxCompletedJobs →
      (GenerationQueue.cancelJob st jobId now).1 = true ∧
      (GenerationQueue.cancelJob st jobId now).2.queue = rest ∧
      lookupKey (GenerationQueue.cancelJob st jobId now).2.completedJobs
          jobId =
        some { job with status := "cancelled", completedAt := some now } ∧
      GenerationQueue.getJobStatus
          (GenerationQueue.cancelJob st jobId now).2 jobId =
        some { id := job.id, status := "cancelled", progress := job.progress,
               queuePosition := none, createdAt := job.createdAt,
               startedAt := job.startedAt, completedAt := some now,
               error := job.error }) := by
  refine ⟨?_, ?_, ?_⟩
  · intro h
    rw [GenerationQueue.cancelJob, if_pos h]
  · intro h
    have hno : ∀ y ∈ st.queue, y.id ≠ jobId := by
      intro y hy
      exact ne_of_contains_eq_false h y.id (List.mem_map_of_mem (·.id) hy)
    by_cases hcur : st.currentJob.map (·.id) = some jobId
    · rw [GenerationQueue.cancelJob, if_pos hcur]
    · rw [GenerationQueue.cancelJob, if_neg hcur,
        removeFirstById_eq_none st.queue jobId hno]
  · intro job rest hcur hrem hqnd hknd hnotin hts hmax
    obtain ⟨hid, pre, suf, hqeq, hrest, hpre⟩ :=
      removeFirstById_spec st.queue jobId job rest hrem
    have hcid : Job.id { job with status := "cancelled",
                                  completedAt := some now } = jobId := hid
    have hrun : GenerationQueue.cancelJob st jobId now =
        (true,
          { st with
            queue := rest
            completedJobs := GenerationQueue.cleanupCompletedJobs
              st.maxCompletedJobs
              (mapSet st.completedJobs
                (Job.id { job with status := "cancelled",
                                   completedAt := some now })
                { job with status := "cancelled",
                           completedAt := some now }) }) := by
      rw [GenerationQueue.cancelJob, if_neg hcur, hrem]
    have hnotin' : ∀ p ∈ st.completedJobs, p.1 ≠ jobId := by
      intro p hp
      exact ne_of_contains_eq_false hnotin p.1 (List.mem_map_of_mem (·.1) hp)
    have hany : (st.completedJobs.any (fun p => p.1 = jobId)) = false := by
      rw [List.any_eq_false]
      intro p hp
      simp only [decide_eq_true_eq]
      exact hnotin' p hp
    have hmapset : mapSet st.completedJobs
        (Job.id { job with status := "cancelled",
                           completedAt := some now })
        { job with status := "cancelled", completedAt := some now } =
        st.completedJobs ++
          [(jobId, { job with status := "cancelled",
                              completedAt := some now })] := by
      rw [hcid, mapSet, if_neg (by rw [hany]; simp)]
    have hle : ∀ y ∈ st.completedJobs, completedKey y.2 ≤
        completedKey ((jobId, { job with status := "cancelled",
                                         completedAt := some now }) : String × Job).2 := by
      intro y hy
      have h1 := List.all_eq_true.mp hts y hy
      exact of_decide_eq_true h1
    have hnd2 : (((st.completedJobs ++
        [(jobId, { job with status := "cancelled",
                            completedAt := some now })] : List (String × Job))).map (·.1)).Nodup := by
      rw [List.map_append]
      refine List.nodup_append.mpr ⟨hknd, by simp, ?_⟩
      intro a ha hb
      have haj : a = jobId := by simpa using hb
      obtain ⟨p, hp, hpk⟩ := List.mem_map.mp ha
      exact hnotin' p hp (by rw [hpk, haj])
    have hlook : lookupKey
        (GenerationQueue.cleanupCompletedJobs st.maxCompletedJobs
          (st.completedJobs ++
            [(jobId, { job with status := "cancelled",
                                completedAt := some now })])) jobId =
        some { job with status := "cancelled", completedAt := some now } :=
      cleanup_keeps_last st.maxCompletedJobs st.completedJobs
        ((jobId, { job with status := "cancelled",
                            completedAt := some now }) : String × Job)
        hnd2 hle hmax
    have hlook' : lookupKey
        (GenerationQueue.cancelJob st jobId now).2.completedJobs jobId =
        some { job with status := "cancelled", completedAt := some now } := by
      rw [hrun]
      show lookupKey (GenerationQueue.cleanupCompletedJobs _ _) _ = _
      rw [hmapset]
      exact hlook
    refine ⟨by rw [hrun], by rw [hrun], hlook', ?_⟩
    have hrestno : ∀ y ∈ rest, y.id ≠ jobId := by
      intro y hy
      rw [hrest] at hy
      rcases List.mem_append.mp hy with hyp | hys
      · exact hpre y hyp
      · intro hcon
        have hmapids : st.queue.map (·.id) =
            pre.map (·.id) ++ job.id :: suf.map (·.id) := by
          rw [hqeq]; simp
        rw [hmapids] at hqnd
        have hnd3 := (List.nodup_append.mp hqnd).2.1
        have hnotin3 := (List.nodup_cons.mp hnd3).1
        refine hnotin3 ?_
        rw [hid, ← hcon]
        exact List.mem_map_of_mem (·.id) hys
    have hcur' : ∀ c, (GenerationQueue.cancelJob st jobId now).2.currentJob =
        some c → c.id ≠ jobId := by
      intro c hc hcon
      rw [hrun] at hc
      exact hcur (by rw [show st.currentJob = some c from hc]; simp [hcon])
    have hq' : ∀ y ∈ (GenerationQueue.cancelJob st jobId now).2.queue,
        y.id ≠ jobId := by
      intro y hy
      apply hrestno
      rw [hrun] at hy
      exact hy
    exact getJobStatus_completed_branch _ jobId _ hcur' hq' hlook'

/-- Witness for C8: cancelling a pending job (id `"a"`) while job `"c"` is
processing and job `"d"` already sits in the completed cache. -/
theorem GenerationQueue_cancelJob_spec_witness :
    (removeFirstById
        [{ id := "a", userId := "u", prompt := "p", models := [],
           priority := 0, status := "pending", progress := 0, createdAt := 1 },
         { id := "b", userId := "u", prompt := "p", models := [],
           priority := 0, status := "pending", progress := 0, createdAt := 2 }]
        "a" =
      some ({ id := "a", userId := "u", prompt := "p", models := [],
              priority := 0, status := "pending", progress := 0,
              createdAt := 1 },
            [{ id := "b", userId := "u", prompt := "p", models := [],
               priority := 0, status := "pending", progress := 0,
               createdAt := 2 }])) ∧
    (GenerationQueue.cancelJob
      { queue :=
          [{ id := "a", userId := "u", prompt := "p", models := [],
             priority := 0, status := "pending", progress := 0, createdAt := 1 },
           { id := "b", userId := "u", prompt := "p", models := [],
             priority := 0, status := "pending", progress := 0, createdAt := 2 }]
        processing := true
        currentJob := some
          { id := "c", userId := "u", prompt := "p", models := [],
            priority := 0, status := "processing", progress := 10,
            createdAt := 0 }
        completedJobs :=
          [("d", { id := "d", userId := "u", prompt := "p", models := [],
                   priority := 0, status := "completed", progress := 100,
                   createdAt := 0, completedAt := some 5 })]
        maxCompletedJobs := 100 } "a" 10).1 = true := by
  have h := (GenerationQueue_cancelJob_spec
    { queue :=
        [{ id := "a", userId := "u", prompt := "p", models := [],
           priority := 0, status := "pending", progress := 0, createdAt := 1 },
         { id := "b", userId := "u", prompt := "p", models := [],
           priority := 0, status := "pending", progress := 0, createdAt := 2 }]
      processing := true
      currentJob := some
        { id := "c", userId := "u", prompt := "p", models := [],
          priority := 0, status := "processing", progress := 10,
          createdAt := 0 }
      completedJobs :=
        [("d", { id := "d", userId := "u", prompt := "p", models := [],
                 priority := 0, status := "completed", progress := 100,
                 createdAt := 0, completedAt := some 5 })]
      maxCompletedJobs := 100 } "a" 10).2.2
    { id := "a", userId := "u", prompt := "p", models := [],
      priority := 0, status := "pending", progress := 0, createdAt := 1 }
    [{ id := "b", userId := "u", prompt := "p", models := [],
       priority := 0, status := "pending", progress := 0, createdAt := 2 }]
    (by decide) (by decide) (by decide) (by decide) (by decide) (by decide)
    (by decide)
  exact ⟨by decide, h.1⟩

/-- Witness for C9: the arm name `"unknown-model"` is not a key of a fresh
state's `modelPreferences`. -/
theorem MABService_updatePreferences_unknown_arm_witness :
    lookupKey (freshPreferences "u").modelPreferences "unknown-model" = none ∧
    (MABService.updatePreferences (freshPreferences "u") "unknown-model"
        (1/2) {}).1.modelScore = none :=
  ⟨by simp [freshPreferences, lookupKey, List.find?],
    (MABService_updatePreferences_unknown_arm (freshPreferences "u")
      "unknown-model" (1/2) {}
      (by simp [freshPreferences, lookupKey, List.find?])).2.2.2.2.2⟩
